import Mathlib

/-!
Verification of the transfer-processing core of the Near-One/bitcoin-connector
repository against its natural-language specification.

The development shallowly embeds the Rust sources:

* `src/near/types/src/transaction.rs` — the consensus decoder for Bitcoin-style
  transactions (`ConsensusDecoder` impls), embedded as total Lean functions over
  `List Nat` byte sequences with an explicit cursor, exactly as the Rust code
  threads `(&[u8], &mut usize)`.
* `src/near/types/src/bitcoin_connector_types.rs` — the raw script classifier
  `Script::from_bytes` and the `UTXO` / `NewTransferToBitcoin` records.
* `src/near/connector/src/lib.rs` — the `BitcoinConnector` contract state and
  its entry points `ft_on_transfer`, `fin_transfer_callback`, and the internal
  `get_utxo` / `get_unsigned_tx`.

Machine integers are embedded as `Nat` with explicit `% 2 ^ w` at the points
where the Rust code casts or where fixed-width wraparound matters.  Rust
`Result` values and Rust panics are distinguished by the three-way result type
`DRes`: `.err` is `Result::Err` (a typed, recoverable error) while `.panik`
models a Rust panic (failed `unwrap`, out-of-bounds index, `panic!`/`require!`).
On the NEAR runtime a panic aborts the method call and rolls back every state
write of that call, so a `.panik` outcome carries no state: the persisted state
is unchanged.  Panic messages are representative of the Rust panic site; the
exact runtime text of index/unwrap panics is not load-bearing.
-/

/-- Outcome of running a piece of Rust code that may return `Err` or panic:
`ok` is `Result::Ok`, `err` is `Result::Err` (typed error, propagated by `?`),
and `panik` is a Rust panic (aborts the call; on NEAR, all state writes of the
call are rolled back). -/
inductive DRes (α : Type) where
  | ok (a : α)
  | err (msg : String)
  | panik (msg : String)
deriving DecidableEq, Repr

namespace DRes

/-- Sequencing: Rust `?` propagates `Err`, and a panic unwinds past everything. -/
def bind {α β : Type} : DRes α → (α → DRes β) → DRes β
  | ok a, f => f a
  | err m, _ => err m
  | panik m, _ => panik m

instance : Monad DRes where
  pure := ok
  bind := bind

/-- `Result::unwrap()`: an `Err` value becomes a panic. -/
def unwrapD {α : Type} : DRes α → DRes α
  | ok a => ok a
  | err m => panik m
  | panik m => panik m

end DRes

/-- Little-endian value of a byte list, as the Rust `from_le_bytes` conversions
read it; each entry is reduced `% 256` since a Rust byte is below 256. -/
def leVal : List Nat → Nat
  | [] => 0
  | b :: rest => b % 256 + 256 * leVal rest

/-- The `k` little-endian bytes of `n` (used by the spec-modelled encoder). -/
def leBytes : Nat → Nat → List Nat
  | 0, _ => []
  | k + 1, n => n % 256 :: leBytes k (n / 256)

/-- `impl ConsensusDecoder for u8` (transaction.rs): one byte at the cursor. -/
def u8_from_bytes (bytes : List Nat) (offset : Nat) : DRes (Nat × Nat) :=
  if offset + 1 > bytes.length then .err "Not enough bytes for parsing u8"
  else .ok (leVal ((bytes.drop offset).take 1), offset + 1)

/-- `impl ConsensusDecoder for u16` (transaction.rs): two little-endian bytes. -/
def u16_from_bytes (bytes : List Nat) (offset : Nat) : DRes (Nat × Nat) :=
  if offset + 2 > bytes.length then .err "Not enough bytes for parsing u16"
  else .ok (leVal ((bytes.drop offset).take 2), offset + 2)

/-- `impl ConsensusDecoder for u32` (transaction.rs): four little-endian bytes. -/
def u32_from_bytes (bytes : List Nat) (offset : Nat) : DRes (Nat × Nat) :=
  if offset + 4 > bytes.length then .err "Not enough bytes for parsing u32"
  else .ok (leVal ((bytes.drop offset).take 4), offset + 4)

/-- `impl ConsensusDecoder for i32` (transaction.rs).  `i32::from_le_bytes` is a
bijection between 4-byte strings and `i32`; the value is represented here by its
unsigned 32-bit bit pattern, which the codec round-trips verbatim. -/
def i32_from_bytes (bytes : List Nat) (offset : Nat) : DRes (Nat × Nat) :=
  if offset + 4 > bytes.length then .err "Not enough bytes for parsing i32"
  else .ok (leVal ((bytes.drop offset).take 4), offset + 4)

/-- `impl ConsensusDecoder for u64` (transaction.rs): eight little-endian bytes. -/
def u64_from_bytes (bytes : List Nat) (offset : Nat) : DRes (Nat × Nat) :=
  if offset + 8 > bytes.length then .err "Not enough bytes for parsing u64"
  else .ok (leVal ((bytes.drop offset).take 8), offset + 8)

/-- `impl ConsensusDecoder for H256` (transaction.rs): 32 raw bytes, verbatim. -/
def h256_from_bytes (bytes : List Nat) (offset : Nat) : DRes (List Nat × Nat) :=
  if offset + 32 > bytes.length then .err "Not enough bytes for parsing H256"
  else .ok ((bytes.drop offset).take 32, offset + 32)

/-- `impl ConsensusDecoder for VarInt` (transaction.rs): Bitcoin compact
integers with the canonicality checks of the source (`x < 0xFD` after `0xFD`,
`x < 0x10000` after `0xFE`, `x < 0x100000000` after `0xFF` are rejected). -/
def varint_from_bytes (bytes : List Nat) (offset : Nat) : DRes (Nat × Nat) := do
  let (n, o) ← u8_from_bytes bytes offset
  if n = 0xFF then
    let (x, o') ← u64_from_bytes bytes o
    if x < 0x100000000 then .err "Incorrect VarInt" else .ok (x, o')
  else if n = 0xFE then
    let (x, o') ← u32_from_bytes bytes o
    if x < 0x10000 then .err "Incorrect VarInt" else .ok (x, o')
  else if n = 0xFD then
    let (x, o') ← u16_from_bytes bytes o
    if x < 0xFD then .err "Incorrect VarInt" else .ok (x, o')
  else .ok (n, o)

/-- `impl ConsensusDecoder for Vec<u8>` (transaction.rs): a compact-integer
length followed by that many raw bytes. -/
def vec_u8_from_bytes (bytes : List Nat) (offset : Nat) : DRes (List Nat × Nat) := do
  let (length, o) ← varint_from_bytes bytes offset
  if o + length > bytes.length then .err "Not enough bytes for decode Vec<u8>"
  else .ok ((bytes.drop o).take length, o + length)

/-- Classified output script, as in both `transaction.rs` and
`bitcoin_connector_types.rs`.  A Rust `String` is its valid-UTF-8 byte
sequence, so `OpReturn` carries the raw text bytes; `V0P2wpkh` carries the
lower-case hex string that `hex::encode` produced. -/
inductive Script where
  | OpReturn (account : List Nat)
  | V0P2wpkh (pk : String)
deriving DecidableEq, Repr

/-- Continuation byte of a UTF-8 sequence. -/
def utf8Cont (b : Nat) : Bool := 0x80 ≤ b && b ≤ 0xBF

/-- Validity of a byte list as UTF-8, exactly the condition under which Rust's
`String::from_utf8` succeeds (RFC 3629: no overlong forms, no surrogates,
nothing above U+10FFFF). -/
def utf8Valid : List Nat → Bool
  | [] => true
  | b :: rest =>
    if b ≤ 0x7F then utf8Valid rest
    else if 0xC2 ≤ b && b ≤ 0xDF then
      match rest with
      | c1 :: r => utf8Cont c1 && utf8Valid r
      | [] => false
    else if b = 0xE0 then
      match rest with
      | c1 :: c2 :: r => (0xA0 ≤ c1 && c1 ≤ 0xBF) && utf8Cont c2 && utf8Valid r
      | _ => false
    else if (0xE1 ≤ b && b ≤ 0xEC) || b = 0xEE || b = 0xEF then
      match rest with
      | c1 :: c2 :: r => utf8Cont c1 && utf8Cont c2 && utf8Valid r
      | _ => false
    else if b = 0xED then
      match rest with
      | c1 :: c2 :: r => (0x80 ≤ c1 && c1 ≤ 0x9F) && utf8Cont c2 && utf8Valid r
      | _ => false
    else if b = 0xF0 then
      match rest with
      | c1 :: c2 :: c3 :: r =>
          (0x90 ≤ c1 && c1 ≤ 0xBF) && utf8Cont c2 && utf8Cont c3 && utf8Valid r
      | _ => false
    else if 0xF1 ≤ b && b ≤ 0xF3 then
      match rest with
      | c1 :: c2 :: c3 :: r => utf8Cont c1 && utf8Cont c2 && utf8Cont c3 && utf8Valid r
      | _ => false
    else if b = 0xF4 then
      match rest with
      | c1 :: c2 :: c3 :: r =>
          (0x80 ≤ c1 && c1 ≤ 0x8F) && utf8Cont c2 && utf8Cont c3 && utf8Valid r
      | _ => false
    else false

/-- The sixteen lower-case hex digits in value order. -/
def hexChars : List Char :=
  ['0', '1', '2', '3', '4', '5', '6', '7'] ++ ['8', '9', 'a', 'b', 'c', 'd', 'e', 'f']

/-- Hex digit for a value below 16 (as `hex::encode` emits, lower-case). -/
def hexDigit (n : Nat) : Char := hexChars.getD n '0'

/-- `hex::encode` on a byte list, as a character list. -/
def hexEncodeList : List Nat → List Char
  | [] => []
  | b :: rest => hexDigit (b % 256 / 16) :: hexDigit (b % 16) :: hexEncodeList rest

/-- `hex::encode`: lower-case hex string of a byte list. -/
def hexEncode (l : List Nat) : String := String.mk (hexEncodeList l)

/-- The script classification logic shared verbatim by
`Script::from_bytes` in `bitcoin_connector_types.rs` (lines 27–43) and the
`ConsensusDecoder for Script` impl in `transaction.rs` (lines 31–47): both
index `script_raw[0]`/`script_raw[1]`, slice `script_raw[2..]`, and unwrap
`String::from_utf8`, so an empty script, a one-byte `0x6a` or `0x00` script,
and malformed UTF-8 all panic rather than returning `Err`. -/
def classifyScript (script_raw : List Nat) : DRes Script :=
  match script_raw with
  | [] => .panik "index out of bounds"
  | b0 :: rest =>
    if b0 = 0x6a then
      match rest with
      | [] => .panik "range start index 2 out of range"
      | _ :: tail =>
        if utf8Valid tail then .ok (.OpReturn tail)
        else .panik "invalid utf-8 sequence"
    else if b0 = 0x00 then
      match rest with
      | [] => .panik "index out of bounds"
      | b1 :: tail =>
        if b1 = 0x14 then .ok (.V0P2wpkh (hexEncode tail))
        else .err "Incorrect script"
    else .err "Incorrect script"

/-- `impl ConsensusDecoder for Script` (transaction.rs): read a
length-prefixed byte vector, then classify it. -/
def script_from_bytes (bytes : List Nat) (offset : Nat) : DRes (Script × Nat) := do
  let (script_raw, o) ← vec_u8_from_bytes bytes offset
  let s ← classifyScript script_raw
  .ok (s, o)

/-- `OutPoint` (transaction.rs): previous transaction id and output index.
`H256` is kept as its 32-byte little-level representation. -/
structure OutPoint where
  txid : List Nat
  vout : Nat
deriving DecidableEq, Repr

/-- `TxIn` (transaction.rs). -/
structure TxIn where
  previous_output : OutPoint
  script_sig : List Nat
  sequence : Nat
deriving DecidableEq, Repr

/-- `TxOut` (transaction.rs). -/
structure TxOut where
  value : Nat
  script_pubkey : Script
deriving DecidableEq, Repr

/-- `Transaction` (transaction.rs).  `version` is the unsigned bit pattern of
the Rust `i32`. -/
structure Transaction where
  version : Nat
  lock_time : Nat
  input : List TxIn
  output : List TxOut
deriving DecidableEq, Repr

/-- `impl ConsensusDecoder for OutPoint` (transaction.rs). -/
def outpoint_from_bytes (bytes : List Nat) (offset : Nat) : DRes (OutPoint × Nat) := do
  let (txid, o) ← h256_from_bytes bytes offset
  let (vout, o') ← u32_from_bytes bytes o
  .ok (⟨txid, vout⟩, o')

/-- `impl ConsensusDecoder for TxIn` (transaction.rs). -/
def txin_from_bytes (bytes : List Nat) (offset : Nat) : DRes (TxIn × Nat) := do
  let (prev, o) ← outpoint_from_bytes bytes offset
  let (sig, o') ← vec_u8_from_bytes bytes o
  let (seq, o'') ← u32_from_bytes bytes o'
  .ok (⟨prev, sig, seq⟩, o'')

/-- `impl ConsensusDecoder for TxOut` (transaction.rs). -/
def txout_from_bytes (bytes : List Nat) (offset : Nat) : DRes (TxOut × Nat) := do
  let (value, o) ← u64_from_bytes bytes offset
  let (s, o') ← script_from_bytes bytes o
  .ok (⟨value, s⟩, o')

/-- The counted-decode loop of the `Vec<TxIn>` / `Vec<TxOut>` impls
(transaction.rs): decode exactly `n` elements. -/
def decodeCount {α : Type} (dec : List Nat → Nat → DRes (α × Nat)) :
    Nat → List Nat → Nat → DRes (List α × Nat)
  | 0, _, o => .ok ([], o)
  | n + 1, bytes, o => do
    let (x, o') ← dec bytes o
    let (xs, o'') ← decodeCount dec n bytes o'
    .ok (x :: xs, o'')

/-- `impl ConsensusDecoder for Vec<TxIn>` (transaction.rs). -/
def vec_txin_from_bytes (bytes : List Nat) (offset : Nat) : DRes (List TxIn × Nat) := do
  let (length, o) ← varint_from_bytes bytes offset
  decodeCount txin_from_bytes length bytes o

/-- `impl ConsensusDecoder for Vec<TxOut>` (transaction.rs). -/
def vec_txout_from_bytes (bytes : List Nat) (offset : Nat) : DRes (List TxOut × Nat) := do
  let (length, o) ← varint_from_bytes bytes offset
  decodeCount txout_from_bytes length bytes o

/-- `impl ConsensusDecoder for Transaction` (transaction.rs): version, inputs,
outputs, lock time. -/
def transaction_from_bytes (bytes : List Nat) (offset : Nat) : DRes (Transaction × Nat) := do
  let (version, o) ← i32_from_bytes bytes offset
  let (input, o') ← vec_txin_from_bytes bytes o
  let (output, o'') ← vec_txout_from_bytes bytes o'
  let (lock_time, o''') ← u32_from_bytes bytes o''
  .ok (⟨version, lock_time, input, output⟩, o''')

/-- `UTXO` (bitcoin_connector_types.rs). -/
structure UTXO where
  txid : List Nat
  vout : Nat
  value : Nat
  script_pubkey : Script
deriving DecidableEq, Repr

/-- `NewTransferToBitcoin` (bitcoin_connector_types.rs).  NEAR account ids are
plain strings here (their format validation is `near_sdk` plumbing, outside the
core). -/
structure NewTransferToBitcoin where
  sender_id : String
  recipient_on_bitcoin : String
  value : Nat
deriving DecidableEq, Repr

/-- Placeholder element for `getD` reads that the source guards by an index
bound. -/
def defUTXO : UTXO := ⟨[], 0, 0, .OpReturn []⟩

/-- The persisted `BitcoinConnector` state (connector/src/lib.rs lines 67–78).
`LookupSet<H256>` is a membership list, `Vector<UTXO>` an ordered list,
`LookupMap<u64, NewTransferToBitcoin>` an association list keyed by nonce. -/
structure ConnectorState where
  bitcoin_pk : String
  omni_btc : String
  finalised_transfers : List (List Nat)
  confirmations : Nat
  btc_light_client : String
  mpc_signer : String
  utxos : List UTXO
  new_transfers : List (Nat × NewTransferToBitcoin)
  min_nonce : Nat
  last_nonce : Nat
deriving DecidableEq, Repr

/-- `BitcoinConnector::new` (lib.rs lines 100–119): fresh state with empty
collections and both nonce counters at zero. -/
def ConnectorState.new (connector_bitcoin_public_key : String) (omni_btc : String)
    (confirmations : Nat) (btc_light_client : String) (mpc_signer : String) :
    ConnectorState :=
  { bitcoin_pk := connector_bitcoin_public_key
    omni_btc := omni_btc
    finalised_transfers := []
    confirmations := confirmations
    btc_light_client := btc_light_client
    mpc_signer := mpc_signer
    utxos := []
    new_transfers := []
    min_nonce := 0
    last_nonce := 0 }

/-- `LookupMap::insert`: set the value at a key, replacing any previous one. -/
def mapInsert (m : List (Nat × NewTransferToBitcoin)) (k : Nat)
    (v : NewTransferToBitcoin) : List (Nat × NewTransferToBitcoin) :=
  match m with
  | [] => [(k, v)]
  | (k', v') :: rest => if k' = k then (k, v) :: rest else (k', v') :: mapInsert rest k v

/-- `LookupMap::get`. -/
def mapGet (m : List (Nat × NewTransferToBitcoin)) (k : Nat) :
    Option NewTransferToBitcoin :=
  match m with
  | [] => none
  | (k', v) :: rest => if k' = k then some v else mapGet rest k

/-- `LookupMap::remove`. -/
def mapRemove (m : List (Nat × NewTransferToBitcoin)) (k : Nat) :
    List (Nat × NewTransferToBitcoin) :=
  match m with
  | [] => []
  | (k', v) :: rest => if k' = k then rest else (k', v) :: mapRemove rest k

/-- Result of `ft_on_transfer` (lib.rs lines 313–342): the new persisted state,
the `u128` amount passed to the external `burn` call, the `u64` value recorded
in the emitted `InitTransferEvent`, and the returned unused amount. -/
structure FtOutcome where
  state : ConnectorState
  burn_amount : Nat
  event_value : Nat
  returned : Nat
deriving DecidableEq, Repr

/-- `ft_on_transfer` (lib.rs lines 313–342), the enqueue entry point: stores a
`NewTransferToBitcoin` at key `last_nonce` (note: the source never increments
`last_nonce`), issues `burn(amount)` for the full `u128` amount, and logs an
`InitTransferEvent` whose value is `amount as u64`, i.e. `amount % 2 ^ 64`. -/
def ft_on_transfer (s : ConnectorState) (sender_id : String) (amount : Nat)
    (msg : String) : FtOutcome :=
  { state := { s with
      new_transfers := mapInsert s.new_transfers s.last_nonce
        ⟨sender_id, msg, amount % 2 ^ 64⟩ }
    burn_amount := amount
    event_value := amount % 2 ^ 64
    returned := 0 }

/-- The `for i in 1..len` scan of `get_utxo` (lib.rs lines 299–304): index of
the entry with the largest value, earliest index winning ties (the comparison
is strict). -/
def maxJLoop (utxos : List UTXO) (maxj i : Nat) : Nat :=
  if i < utxos.length then
    maxJLoop utxos
      (if (utxos.getD i defUTXO).value > (utxos.getD maxj defUTXO).value then i else maxj)
      (i + 1)
  else maxj
termination_by utxos.length - i

/-- `near_sdk::collections::Vector::swap_remove`: return the element at `j`,
move the last element into its place, shrink by one. -/
def swapRemove (l : List UTXO) (j : Nat) : UTXO × List UTXO :=
  (l.getD j defUTXO, (l.set j (l.getD (l.length - 1) defUTXO)).dropLast)

/-- `get_utxo` (lib.rs lines 298–307): greedy maximum-value selection via
`swap_remove`.  On an empty vector `swap_remove(0)` panics with an
index-out-of-bounds error. -/
def get_utxo (utxos : List UTXO) : DRes (UTXO × List UTXO) :=
  if utxos.length = 0 then .panik "ERR_INDEX_OUT_OF_BOUNDS"
  else .ok (swapRemove utxos (maxJLoop utxos 0 1))

/-- `get_unsigned_tx` (lib.rs lines 264–296), restricted to its effect on the
persisted state: select and remove a UTXO, read and remove the pending
transfer at `min_nonce` (panicking on `unwrap` if absent), and advance
`min_nonce`.  The construction of the unsigned Bitcoin transaction from the
returned pair (and the recipient-address parse) uses the external `bitcoin`
crate and is not part of the core state machine. -/
def get_unsigned_tx (s : ConnectorState) :
    DRes (ConnectorState × UTXO × NewTransferToBitcoin) := do
  let (utxo, rest) ← get_utxo s.utxos
  match mapGet s.new_transfers s.min_nonce with
  | none => .panik "called Option::unwrap on a None value"
  | some transfer =>
    .ok ({ s with
            utxos := rest
            new_transfers := mapRemove s.new_transfers s.min_nonce
            min_nonce := (s.min_nonce + 1) % 2 ^ 64 },
         utxo, transfer)

/-- One output of the already-deserialized Bitcoin transaction inside
`fin_transfer_callback`: its satoshi value and the raw bytes of its
`script_pubkey` (the external `bitcoin` crate performed the wire decoding). -/
structure BOut where
  value : Nat
  script_raw : List Nat
deriving DecidableEq, Repr

/-- The output loop of `fin_transfer_callback` (lib.rs lines 152–176):
classify each output's script (a classification `Err` is `unwrap`ped into a
panic), push a `UTXO` and accumulate `value` for each `V0P2wpkh` script whose
hex key hash equals the connector's `bitcoin_pk`, record the `OpReturn`
account as recipient, and panic if a second `OpReturn` output appears.
`value` is a `u64` accumulator, hence the `% 2 ^ 64`. -/
def finLoop (pk : String) (txId : List Nat) :
    List BOut → Nat → Nat → Option (List Nat) → List UTXO →
    DRes (Nat × Option (List Nat) × List UTXO)
  | [], _, value, recipient, utxos => .ok (value, recipient, utxos)
  | out :: rest, i, value, recipient, utxos => do
    let script ← DRes.unwrapD (classifyScript out.script_raw)
    match script with
    | .V0P2wpkh p =>
      if p = pk then
        finLoop pk txId rest (i + 1) ((value + out.value) % 2 ^ 64) recipient
          (utxos ++ [⟨txId, i, out.value, .V0P2wpkh p⟩])
      else finLoop pk txId rest (i + 1) value recipient utxos
    | .OpReturn account =>
      match recipient with
      | some _ => .panik "Tx should contain exactly one OP_RETURN script"
      | none => finLoop pk txId rest (i + 1) value (some account) utxos

/-- `fin_transfer_callback` (lib.rs lines 143–188), over the already-decoded
transaction: `txId` is `get_tx_id(&tx)` (a content hash computed by the
external `bitcoin` crate) and `outputs` its output list.  `call_result` is the
light-client callback result (`none` models a failed promise, whose `unwrap`
panics).  The callback walks the outputs, then performs the
check-and-insert on the finalised set (`LookupSet::insert` returns `false` for
a duplicate, failing the `require!`), and finally issues the external `mint`
call when an `OpReturn` recipient was present — returned here as
`some (recipient bytes, minted amount)`.  A `.panik` outcome aborts the NEAR
call: no state write survives and no mint is issued. -/
def fin_transfer_callback (s : ConnectorState) (call_result : Option Bool)
    (txId : List Nat) (outputs : List BOut) :
    DRes (ConnectorState × Option (List Nat × Nat)) := do
  match call_result with
  | none => .panik "callback promise failed"
  | some verified =>
    if verified then do
      let (value, recipient, utxos') ← finLoop s.bitcoin_pk txId outputs 0 0 none s.utxos
      if txId ∈ s.finalised_transfers then .panik "The transfer is already finalised"
      else
        .ok ({ s with utxos := utxos', finalised_transfers := txId :: s.finalised_transfers },
             recipient.map (fun r => (r, value)))
    else .panik "Failed to verify proof"

/-- Modelled from the spec: the repository contains only the decoder; this is
the canonical compact-integer ("varint") encoder of §4.1 — values 0–252 in one
byte, otherwise the shortest of the `0xFD`/`0xFE`/`0xFF` prefixed
little-endian forms. -/
def encodeVarInt (n : Nat) : List Nat :=
  if n ≤ 252 then [n]
  else if n ≤ 0xFFFF then 0xFD :: leBytes 2 n
  else if n ≤ 0xFFFFFFFF then 0xFE :: leBytes 4 n
  else 0xFF :: leBytes 8 n

/-- Modelled from the spec: length-prefixed byte-vector encoding
(§4.1, "sequences are prefixed by a compact-integer count"). -/
def encodeVecU8 (v : List Nat) : List Nat := encodeVarInt v.length ++ v

/-- Value of a lower-case hex digit (inverse of `hexDigit`; used only by the
spec-modelled encoder to recover the payload bytes a `V0P2wpkh` hex string
denotes). -/
def hexVal (c : Char) : Nat := hexChars.indexOf c

/-- Bytes denoted by a hex character list, two digits per byte. -/
def hexDecodeList : List Char → List Nat
  | c1 :: c2 :: rest => (16 * hexVal c1 + hexVal c2) :: hexDecodeList rest
  | _ => []

/-- Bytes denoted by a hex string. -/
def hexDecode (s : String) : List Nat := hexDecodeList s.data

/-! ### The spec-modelled wire encoder (§4.1–§4.2) -/

/-- Modelled from the spec: the canonical serialization of a classified output
script (§4.2) — `OpReturn` as the OP_RETURN opcode `0x6a`, a one-byte push
length, and the text bytes; `V0P2wpkh` as the version-0 witness program
`0x00 0x14` followed by the 20 payload bytes the hex string denotes — each
wrapped in the compact-integer length prefix of §4.1.  The repository has no
encoder; only the decoder appears in `transaction.rs`. -/
def encodeScript : Script → List Nat
  | .OpReturn account => encodeVecU8 (0x6a :: account.length :: account)
  | .V0P2wpkh pk => encodeVecU8 (0x00 :: 0x14 :: hexDecode pk)

/-- Modelled from the spec: `OutPoint` as the 32-byte txid then the
little-endian 32-bit index. -/
def encodeOutPoint (p : OutPoint) : List Nat := p.txid ++ leBytes 4 p.vout

/-- Modelled from the spec: a `TxIn` as outpoint, length-prefixed unlocking
script, and little-endian 32-bit sequence number. -/
def encodeTxIn (i : TxIn) : List Nat :=
  encodeOutPoint i.previous_output ++ encodeVecU8 i.script_sig ++ leBytes 4 i.sequence

/-- Modelled from the spec: a `TxOut` as the little-endian 64-bit value then
the script. -/
def encodeTxOut (o : TxOut) : List Nat := leBytes 8 o.value ++ encodeScript o.script_pubkey

/-- Modelled from the spec: a `Transaction` as version, compact-count-prefixed
inputs, compact-count-prefixed outputs, lock time (§4.1). -/
def encodeTransaction (t : Transaction) : List Nat :=
  leBytes 4 t.version ++ encodeVarInt t.input.length ++ (t.input.map encodeTxIn).flatten ++
    encodeVarInt t.output.length ++ (t.output.map encodeTxOut).flatten ++ leBytes 4 t.lock_time

/-- Well-formedness of a classified script for the round-trip law: an
`OpReturn` text is valid UTF-8 and short enough for its one-byte push length;
a `V0P2wpkh` key hash is a 40-character lower-case hex string (20 bytes). -/
def WFScript : Script → Bool
  | .OpReturn account => utf8Valid account && decide (account.length < 256)
  | .V0P2wpkh pk => decide (pk.data.length = 40) && decide (∀ c ∈ pk.data, c ∈ hexChars)

/-- Well-formedness of a `TxIn`: a 32-byte txid, in-range bytes and fields. -/
def WFTxIn (i : TxIn) : Bool :=
  decide (i.previous_output.txid.length = 32) &&
  decide (∀ b ∈ i.previous_output.txid, b < 256) &&
  decide (i.previous_output.vout < 2 ^ 32) &&
  decide (∀ b ∈ i.script_sig, b < 256) &&
  decide (i.script_sig.length < 2 ^ 64) &&
  decide (i.sequence < 2 ^ 32)

/-- Well-formedness of a `TxOut`: a `u64` value and a well-formed script. -/
def WFTxOut (o : TxOut) : Bool := decide (o.value < 2 ^ 64) && WFScript o.script_pubkey

/-- Well-formedness of a `Transaction` for the round-trip law: all fields in
range and all inputs/outputs well-formed. -/
def WFTransaction (t : Transaction) : Bool :=
  decide (t.version < 2 ^ 32) && decide (t.lock_time < 2 ^ 32) &&
  decide (t.input.length < 2 ^ 64) && decide (t.output.length < 2 ^ 64) &&
  t.input.all WFTxIn && t.output.all WFTxOut

/-- The transaction of the repository's own decoder test
(`test_decode_tx` in transaction.rs), used as the round-trip witness. -/
def testTx : Transaction :=
  { version := 2
    lock_time := 0
    input := [{ previous_output :=
                  { txid := [146, 97, 87, 240, 48, 14, 73, 34, 141, 7, 70, 93, 114, 66, 33,
                             225, 162, 61, 65, 121, 144, 125, 23, 135, 76, 73, 173, 138, 39,
                             187, 4, 2]
                    vout := 1 }
                script_sig := []
                sequence := 4294967295 }]
    output := [{ value := 300, script_pubkey := .V0P2wpkh "396e765f3fd99b894caea7e92ebb6d8764ae5cdd" },
               { value := 1500, script_pubkey := .V0P2wpkh "ab19f392ce08dcc2b5d125263986de4aa59c5fdd" },
               { value := 0,
                 script_pubkey := .OpReturn
                   [72, 101, 108, 108, 111, 44, 32, 66, 105, 116, 99, 111, 105, 110, 33] }] }

/-- First-some choice on options (Rust's behaviour of keeping an already-set
`recipient`). -/
def optOr (a b : Option (List Nat)) : Option (List Nat) :=
  match a with
  | some x => some x
  | none => b

/-- Sum of the values of the outputs whose script classifies as a `V0P2wpkh`
custody script for key-hash hex `pk` — the amount `fin_transfer_callback`
accumulates. -/
def sumCustody (pk : String) : List BOut → Nat
  | [] => 0
  | out :: rest =>
    match classifyScript out.script_raw with
    | .ok (.V0P2wpkh p) =>
      if p = pk then out.value + sumCustody pk rest else sumCustody pk rest
    | _ => sumCustody pk rest

/-- The `UTXO` records `fin_transfer_callback` pushes: one per output whose
script classifies as `V0P2wpkh pk`, carrying the transaction id, the output's
index, and its value, in output order. -/
def custodyUtxos (pk : String) (txId : List Nat) : List BOut → Nat → List UTXO
  | [], _ => []
  | out :: rest, i =>
    match classifyScript out.script_raw with
    | .ok (.V0P2wpkh p) =>
      if p = pk then
        ⟨txId, i, out.value, .V0P2wpkh p⟩ :: custodyUtxos pk txId rest (i + 1)
      else custodyUtxos pk txId rest (i + 1)
    | _ => custodyUtxos pk txId rest (i + 1)

/-- The first output classifying as `OpReturn`, if any: the recipient the
callback records. -/
def firstOpReturn : List BOut → Option (List Nat)
  | [] => none
  | out :: rest =>
    match classifyScript out.script_raw with
    | .ok (.OpReturn a) => some a
    | _ => firstOpReturn rest

/-- Number of outputs classifying as `OpReturn`. -/
def countOpReturn : List BOut → Nat
  | [] => 0
  | out :: rest =>
    match classifyScript out.script_raw with
    | .ok (.OpReturn _) => 1 + countOpReturn rest
    | _ => countOpReturn rest

/-- A connector whose custody key hash is the hex of twenty `0xaa` bytes. -/
def connState : ConnectorState :=
  ConnectorState.new "aaaaaaaaaaaaaaaaaaaaaaaaaaaaaaaaaaaaaaaa" "omni" 2 "light" "signer"

/-- The UTF-8 bytes of the account text "alice". -/
def aliceAcct : List Nat := [97, 108, 105, 99, 101]

/-- Outputs of a deposit whose 5000-satoshi witness program pays a FOREIGN
key hash (twenty `0xbb` bytes) plus an OP_RETURN routing output. -/
def foreignOuts : List BOut :=
  [⟨5000, 0x00 :: 0x14 :: List.replicate 20 0xbb⟩,
   ⟨0, 0x6a :: 0x05 :: aliceAcct⟩]

/-- Outputs of a deposit whose 5000-satoshi witness program pays the
connector's own key hash plus an OP_RETURN routing output. -/
def matchOuts : List BOut :=
  [⟨5000, 0x00 :: 0x14 :: List.replicate 20 0xaa⟩,
   ⟨0, 0x6a :: 0x05 :: aliceAcct⟩]

/-- The connector state after successfully finalizing the `matchOuts` deposit
with transaction id `[7]`. -/
def stateAfterDeposit : ConnectorState :=
  { connState with
      utxos := [⟨[7], 0, 5000, .V0P2wpkh "aaaaaaaaaaaaaaaaaaaaaaaaaaaaaaaaaaaaaaaa"⟩]
      finalised_transfers := [[7]] }

/-- Outputs containing two OP_RETURN routing scripts. -/
def twoOpOuts : List BOut :=
  [⟨0, [0x6a, 0x01, 97]⟩, ⟨0, [0x6a, 0x01, 98]⟩]

namespace DRes

@[simp] theorem bind_ok {α β : Type} (a : α) (f : α → DRes β) : bind (ok a) f = f a := rfl

@[simp] theorem bind_err {α β : Type} (m : String) (f : α → DRes β) :
    bind (err m) f = err m := rfl

@[simp] theorem bind_panik {α β : Type} (m : String) (f : α → DRes β) :
    bind (panik m) f = panik m := rfl

@[simp] theorem monad_bind_eq_bind {α β : Type} (x : DRes α) (f : α → DRes β) :
    x >>= f = bind x f := rfl

end DRes

/-! ### Byte-level facts about the little-endian helpers -/

theorem leBytes_length (k n : Nat) : (leBytes k n).length = k := by
  induction k generalizing n with
  | zero => rfl
  | succ k ih => simp [leBytes, ih]

theorem leVal_leBytes (k n : Nat) (h : n < 2 ^ (8 * k)) : leVal (leBytes k n) = n := by
  induction k generalizing n with
  | zero => simp at h; simp [leBytes, leVal, h]
  | succ k ih =>
    have hdiv : n / 256 < 2 ^ (8 * k) := by
      have h8 : 8 * (k + 1) = 8 * k + 8 := by ring
      rw [h8, pow_add] at h
      exact Nat.div_lt_of_lt_mul (by omega)
    simp only [leBytes, leVal, ih (n / 256) hdiv]
    omega

theorem leVal_lt (l : List Nat) : leVal l < 2 ^ (8 * l.length) := by
  induction l with
  | nil => simp [leVal]
  | cons b rest ih =>
    have h8 : 8 * (b :: rest).length = 8 * rest.length + 8 := by
      simp [List.length_cons]; ring
    rw [h8, pow_add]
    have hb : b % 256 < 256 := Nat.mod_lt _ (by omega)
    simp only [leVal]
    calc b % 256 + 256 * leVal rest < 256 + 256 * leVal rest := by omega
    _ ≤ 256 * (leVal rest + 1) := by ring_nf; omega
    _ ≤ 256 * 2 ^ (8 * rest.length) := by
        have := ih; exact Nat.mul_le_mul_left 256 (by omega)
    _ = 2 ^ (8 * rest.length) * 2 ^ 8 := by ring
  
/-- Bookkeeping: if the bytes from the cursor are `enc ++ rest`, the total
length decomposes. -/
theorem drop_length_decomp {bytes enc rest : List Nat} {o : Nat}
    (ho : o ≤ bytes.length) (hd : bytes.drop o = enc ++ rest) :
    bytes.length = o + enc.length + rest.length := by
  have := List.length_drop o bytes
  rw [hd] at this
  simp only [List.length_append] at this
  omega

/-- A fixed-width read at a cursor whose suffix starts with the `k`
little-endian bytes of `n` succeeds and produces `n`. -/
theorem fixed_read {bytes rest : List Nat} {o k n : Nat}
    (ho : o ≤ bytes.length) (hd : bytes.drop o = leBytes k n ++ rest)
    (hn : n < 2 ^ (8 * k)) :
    ¬ (o + k > bytes.length) ∧ leVal ((bytes.drop o).take k) = n := by
  have hlen := drop_length_decomp ho hd
  rw [leBytes_length] at hlen
  constructor
  · omega
  · rw [hd, List.take_left' (leBytes_length k n), leVal_leBytes k n hn]

theorem u8_spec {bytes rest : List Nat} {o b : Nat}
    (ho : o ≤ bytes.length) (hd : bytes.drop o = b :: rest) (hb : b < 256) :
    u8_from_bytes bytes o = .ok (b, o + 1) := by
  have h := fixed_read (k := 1) (n := b) ho (by simpa [leBytes, Nat.mod_eq_of_lt hb] using hd)
    (by simpa using hb)
  simp [u8_from_bytes, h.1, h.2]

theorem u16_spec {bytes rest : List Nat} {o n : Nat}
    (ho : o ≤ bytes.length) (hd : bytes.drop o = leBytes 2 n ++ rest)
    (hn : n < 2 ^ 16) :
    u16_from_bytes bytes o = .ok (n, o + 2) := by
  have h := fixed_read (k := 2) ho hd (by simpa using hn)
  simp [u16_from_bytes, h.1, h.2]

theorem u32_spec {bytes rest : List Nat} {o n : Nat}
    (ho : o ≤ bytes.length) (hd : bytes.drop o = leBytes 4 n ++ rest)
    (hn : n < 2 ^ 32) :
    u32_from_bytes bytes o = .ok (n, o + 4) := by
  have h := fixed_read (k := 4) ho hd (by simpa using hn)
  simp [u32_from_bytes, h.1, h.2]

theorem i32_spec {bytes rest : List Nat} {o n : Nat}
    (ho : o ≤ bytes.length) (hd : bytes.drop o = leBytes 4 n ++ rest)
    (hn : n < 2 ^ 32) :
    i32_from_bytes bytes o = .ok (n, o + 4) := by
  have h := fixed_read (k := 4) ho hd (by simpa using hn)
  simp [i32_from_bytes, h.1, h.2]

theorem u64_spec {bytes rest : List Nat} {o n : Nat}
    (ho : o ≤ bytes.length) (hd : bytes.drop o = leBytes 8 n ++ rest)
    (hn : n < 2 ^ 64) :
    u64_from_bytes bytes o = .ok (n, o + 8) := by
  have h := fixed_read (k := 8) ho hd (by simpa using hn)
  simp [u64_from_bytes, h.1, h.2]

theorem h256_spec {bytes t rest : List Nat} {o : Nat}
    (ho : o ≤ bytes.length) (hd : bytes.drop o = t ++ rest) (ht : t.length = 32) :
    h256_from_bytes bytes o = .ok (t, o + 32) := by
  have hlen := drop_length_decomp ho hd
  have hguard : ¬ (o + 32 > bytes.length) := by omega
  simp [h256_from_bytes, hguard, hd, List.take_left' ht]

/-! ### Compact-integer encoding (spec-modelled) and varint lemmas -/

theorem encodeVarInt_length_pos (n : Nat) : 0 < (encodeVarInt n).length := by
  unfold encodeVarInt
  split
  · simp
  · split
    · simp [leBytes_length]
    · split <;> simp [leBytes_length]

/-- Decoding the canonical encoding of any `u64` value yields that value and
advances the cursor past it. -/
theorem varint_spec {bytes rest : List Nat} {o n : Nat}
    (ho : o ≤ bytes.length) (hd : bytes.drop o = encodeVarInt n ++ rest)
    (hn : n < 2 ^ 64) :
    varint_from_bytes bytes o = .ok (n, o + (encodeVarInt n).length) := by
  unfold encodeVarInt at hd ⊢
  by_cases h1 : n ≤ 252
  · rw [if_pos h1] at hd ⊢
    have hb := u8_spec ho (by simpa using hd) (by omega)
    have hne : ¬ (n = 0xFF) ∧ ¬ (n = 0xFE) ∧ ¬ (n = 0xFD) := by omega
    simp [varint_from_bytes, hb, hne.1, hne.2.1, hne.2.2]
  · rw [if_neg h1] at hd ⊢
    by_cases h2 : n ≤ 0xFFFF
    · rw [if_pos h2] at hd ⊢
      have hb := @u8_spec bytes (leBytes 2 n ++ rest) o 0xFD ho
        (by simpa using hd) (by omega)
      have ho1 : o + 1 ≤ bytes.length := by
        have := drop_length_decomp ho hd
        simp [leBytes_length] at this; omega
      have hd1 : bytes.drop (o + 1) = leBytes 2 n ++ rest := by
        rw [← List.drop_drop, hd]; rfl
      have h16 := u16_spec ho1 hd1 (by omega)
      have hge : ¬ (n < 0xFD) := by omega
      simp [varint_from_bytes, hb, h16, hge, leBytes_length]
    · rw [if_neg h2] at hd ⊢
      by_cases h3 : n ≤ 0xFFFFFFFF
      · rw [if_pos h3] at hd ⊢
        have hb := @u8_spec bytes (leBytes 4 n ++ rest) o 0xFE ho
          (by simpa using hd) (by omega)
        have ho1 : o + 1 ≤ bytes.length := by
          have := drop_length_decomp ho hd
          simp [leBytes_length] at this; omega
        have hd1 : bytes.drop (o + 1) = leBytes 4 n ++ rest := by
          rw [← List.drop_drop, hd]; rfl
        have h32 := u32_spec ho1 hd1 (by omega)
        have hge : ¬ (n < 0x10000) := by omega
        simp [varint_from_bytes, hb, h32, hge, leBytes_length]
      · rw [if_neg h3] at hd ⊢
        have hb := @u8_spec bytes (leBytes 8 n ++ rest) o 0xFF ho
          (by simpa using hd) (by omega)
        have ho1 : o + 1 ≤ bytes.length := by
          have := drop_length_decomp ho hd
          simp [leBytes_length] at this; omega
        have hd1 : bytes.drop (o + 1) = leBytes 8 n ++ rest := by
          rw [← List.drop_drop, hd]; rfl
        have h64 := u64_spec ho1 hd1 (by omega)
        have hge : ¬ (n < 0x100000000) := by omega
        simp [varint_from_bytes, hb, h64, hge, leBytes_length]

theorem vec_u8_spec {bytes v rest : List Nat} {o : Nat}
    (ho : o ≤ bytes.length) (hd : bytes.drop o = encodeVecU8 v ++ rest)
    (hv : v.length < 2 ^ 64) :
    vec_u8_from_bytes bytes o = .ok (v, o + (encodeVecU8 v).length) := by
  unfold encodeVecU8 at hd ⊢
  rw [List.append_assoc] at hd
  have hvi := varint_spec ho hd hv
  have hlen := drop_length_decomp ho hd
  have ho1 : o + (encodeVarInt v.length).length ≤ bytes.length := by omega
  have hd1 : bytes.drop (o + (encodeVarInt v.length).length) = v ++ rest := by
    rw [← List.drop_drop, hd, List.drop_left]
  have hlen1 := drop_length_decomp ho1 hd1
  have hguard : ¬ (o + (encodeVarInt v.length).length + v.length > bytes.length) := by omega
  simp [vec_u8_from_bytes, hvi, hguard, hd1, List.take_left' rfl, List.length_append]
  omega

/-- Raw fixed-width read: if the suffix at the cursor starts with a `k`-byte
block `t`, the bounds check passes and the slice is `t`. -/
theorem fixed_read_raw {bytes t rest : List Nat} {o k : Nat}
    (ho : o ≤ bytes.length) (hd : bytes.drop o = t ++ rest) (ht : t.length = k) :
    ¬ (o + k > bytes.length) ∧ (bytes.drop o).take k = t := by
  have hlen := drop_length_decomp ho hd
  exact ⟨by omega, by rw [hd, List.take_left' ht]⟩

theorem drop_cons_succ {bytes t : List Nat} {o : Nat} {b : Nat}
    (hd : bytes.drop o = b :: t) : bytes.drop (o + 1) = t := by
  rw [← List.drop_drop, hd]
  rfl

theorem append_length_le (pre x : List Nat) : pre.length ≤ (pre ++ x).length := by
  simp [List.length_append]

theorem varint_reject_16 (pre rest : List Nat) (b1 b2 : Nat)
    (h1 : b1 < 256) (h2 : b2 < 256) (hle : b1 + 256 * b2 ≤ 252) :
    varint_from_bytes (pre ++ 0xFD :: b1 :: b2 :: rest) pre.length =
      .err "Incorrect VarInt" := by
  set bytes := pre ++ 0xFD :: b1 :: b2 :: rest with hbytes
  have ho : pre.length ≤ bytes.length := append_length_le _ _
  have hd : bytes.drop pre.length = 0xFD :: b1 :: b2 :: rest := List.drop_left _ _
  have hu8 := u8_spec ho hd (by omega)
  have hd1 : bytes.drop (pre.length + 1) = b1 :: b2 :: rest := drop_cons_succ hd
  have ho1 : pre.length + 1 ≤ bytes.length := by
    have := drop_length_decomp ho (show bytes.drop pre.length = [0xFD] ++ _ from hd)
    simp at this; omega
  have h16 := fixed_read_raw (t := [b1, b2]) (k := 2) ho1 (by simpa using hd1) rfl
  have hval : leVal [b1, b2] = b1 + 256 * b2 := by
    simp [leVal, Nat.mod_eq_of_lt h1, Nat.mod_eq_of_lt h2]
  have hcase : ¬ ((0xFD : Nat) = 0xFF) ∧ ¬ ((0xFD : Nat) = 0xFE) := by omega
  simp [varint_from_bytes, hu8, hcase.1, hcase.2, u16_from_bytes, h16.1, h16.2, hval]
  omega

theorem varint_reject_32 (pre rest : List Nat) (b1 b2 b3 b4 : Nat)
    (h1 : b1 < 256) (h2 : b2 < 256) (h3 : b3 < 256) (h4 : b4 < 256)
    (hle : b1 + 256 * b2 + 65536 * b3 + 16777216 * b4 ≤ 0xFFFF) :
    varint_from_bytes (pre ++ 0xFE :: b1 :: b2 :: b3 :: b4 :: rest) pre.length =
      .err "Incorrect VarInt" := by
  set bytes := pre ++ 0xFE :: b1 :: b2 :: b3 :: b4 :: rest with hbytes
  have ho : pre.length ≤ bytes.length := append_length_le _ _
  have hd : bytes.drop pre.length = 0xFE :: b1 :: b2 :: b3 :: b4 :: rest := List.drop_left _ _
  have hu8 := u8_spec ho hd (by omega)
  have hd1 : bytes.drop (pre.length + 1) = b1 :: b2 :: b3 :: b4 :: rest := drop_cons_succ hd
  have ho1 : pre.length + 1 ≤ bytes.length := by
    have := drop_length_decomp ho (show bytes.drop pre.length = [0xFE] ++ _ from hd)
    simp at this; omega
  have h32 := fixed_read_raw (t := [b1, b2, b3, b4]) (k := 4) ho1 (by simpa using hd1) rfl
  have hval : leVal [b1, b2, b3, b4] = b1 + 256 * b2 + 65536 * b3 + 16777216 * b4 := by
    simp [leVal, Nat.mod_eq_of_lt h1, Nat.mod_eq_of_lt h2, Nat.mod_eq_of_lt h3,
      Nat.mod_eq_of_lt h4]
    ring
  have hcase : ¬ ((0xFE : Nat) = 0xFF) := by omega
  simp [varint_from_bytes, hu8, hcase, u32_from_bytes, h32.1, h32.2, hval]
  omega

theorem varint_reject_64 (pre rest : List Nat) (b1 b2 b3 b4 b5 b6 b7 b8 : Nat)
    (h1 : b1 < 256) (h2 : b2 < 256) (h3 : b3 < 256) (h4 : b4 < 256)
    (h5 : b5 < 256) (h6 : b6 < 256) (h7 : b7 < 256) (h8 : b8 < 256)
    (hle : b1 + 256 * b2 + 65536 * b3 + 16777216 * b4 + 4294967296 * b5 +
      1099511627776 * b6 + 281474976710656 * b7 + 72057594037927936 * b8 ≤ 0xFFFFFFFF) :
    varint_from_bytes (pre ++ 0xFF :: b1 :: b2 :: b3 :: b4 :: b5 :: b6 :: b7 :: b8 :: rest)
      pre.length = .err "Incorrect VarInt" := by
  set bytes := pre ++ 0xFF :: b1 :: b2 :: b3 :: b4 :: b5 :: b6 :: b7 :: b8 :: rest with hbytes
  have ho : pre.length ≤ bytes.length := append_length_le _ _
  have hd : bytes.drop pre.length = 0xFF :: b1 :: b2 :: b3 :: b4 :: b5 :: b6 :: b7 :: b8 :: rest :=
    List.drop_left _ _
  have hu8 := u8_spec ho hd (by omega)
  have hd1 : bytes.drop (pre.length + 1) = b1 :: b2 :: b3 :: b4 :: b5 :: b6 :: b7 :: b8 :: rest :=
    drop_cons_succ hd
  have ho1 : pre.length + 1 ≤ bytes.length := by
    have := drop_length_decomp ho (show bytes.drop pre.length = [0xFF] ++ _ from hd)
    simp at this; omega
  have h64 := fixed_read_raw (t := [b1, b2, b3, b4, b5, b6, b7, b8]) (k := 8) ho1
    (by simpa using hd1) rfl
  have hval : leVal [b1, b2, b3, b4, b5, b6, b7, b8] =
      b1 + 256 * b2 + 65536 * b3 + 16777216 * b4 + 4294967296 * b5 +
      1099511627776 * b6 + 281474976710656 * b7 + 72057594037927936 * b8 := by
    simp [leVal, Nat.mod_eq_of_lt h1, Nat.mod_eq_of_lt h2, Nat.mod_eq_of_lt h3,
      Nat.mod_eq_of_lt h4, Nat.mod_eq_of_lt h5, Nat.mod_eq_of_lt h6, Nat.mod_eq_of_lt h7,
      Nat.mod_eq_of_lt h8]
    ring
  simp [varint_from_bytes, hu8, u64_from_bytes, h64.1, h64.2, hval]
  omega

/-- C2: compact-integer decoding enforces canonicality.  At any cursor
position: a `0xFD`-prefixed 16-bit value at most 252, a `0xFE`-prefixed 32-bit
value at most `0xFFFF`, and a `0xFF`-prefixed 64-bit value at most
`0xFFFFFFFF` are each rejected with the decode error "Incorrect VarInt",
while the minimal boundary encodings — a single byte 0–252, `0xFD`-prefixed
253, `0xFE`-prefixed `0x10000`, `0xFF`-prefixed `0x100000000` — are accepted
and decode to those values. -/
theorem varint_canonicality :
    (∀ (pre rest : List Nat) (b1 b2 : Nat), b1 < 256 → b2 < 256 →
      b1 + 256 * b2 ≤ 252 →
      varint_from_bytes (pre ++ 0xFD :: b1 :: b2 :: rest) pre.length =
        .err "Incorrect VarInt") ∧
    (∀ (pre rest : List Nat) (b1 b2 b3 b4 : Nat),
      b1 < 256 → b2 < 256 → b3 < 256 → b4 < 256 →
      b1 + 256 * b2 + 65536 * b3 + 16777216 * b4 ≤ 0xFFFF →
      varint_from_bytes (pre ++ 0xFE :: b1 :: b2 :: b3 :: b4 :: rest) pre.length =
        .err "Incorrect VarInt") ∧
    (∀ (pre rest : List Nat) (b1 b2 b3 b4 b5 b6 b7 b8 : Nat),
      b1 < 256 → b2 < 256 → b3 < 256 → b4 < 256 →
      b5 < 256 → b6 < 256 → b7 < 256 → b8 < 256 →
      b1 + 256 * b2 + 65536 * b3 + 16777216 * b4 + 4294967296 * b5 +
        1099511627776 * b6 + 281474976710656 * b7 + 72057594037927936 * b8 ≤ 0xFFFFFFFF →
      varint_from_bytes
        (pre ++ 0xFF :: b1 :: b2 :: b3 :: b4 :: b5 :: b6 :: b7 :: b8 :: rest) pre.length =
        .err "Incorrect VarInt") ∧
    (∀ (pre rest : List Nat) (b : Nat), b ≤ 252 →
      varint_from_bytes (pre ++ b :: rest) pre.length = .ok (b, pre.length + 1)) ∧
    (∀ pre rest : List Nat,
      varint_from_bytes (pre ++ 0xFD :: 253 :: 0 :: rest) pre.length =
        .ok (253, pre.length + 3)) ∧
    (∀ pre rest : List Nat,
      varint_from_bytes (pre ++ 0xFE :: 0 :: 0 :: 1 :: 0 :: rest) pre.length =
        .ok (0x10000, pre.length + 5)) ∧
    (∀ pre rest : List Nat,
      varint_from_bytes (pre ++ 0xFF :: 0 :: 0 :: 0 :: 0 :: 1 :: 0 :: 0 :: 0 :: rest)
        pre.length = .ok (0x100000000, pre.length + 9)) := by
  refine ⟨varint_reject_16, varint_reject_32, varint_reject_64, ?_, ?_, ?_, ?_⟩
  · intro pre rest b hb
    have h := @varint_spec (pre ++ b :: rest) rest pre.length b (append_length_le _ _)
      (by rw [List.drop_left]; simp [encodeVarInt, hb]) (by omega)
    simpa [encodeVarInt, hb] using h
  · intro pre rest
    have h := @varint_spec (pre ++ 0xFD :: 253 :: 0 :: rest) rest pre.length 253
      (append_length_le _ _) (by rw [List.drop_left]; rfl) (by omega)
    simpa [encodeVarInt, leBytes] using h
  · intro pre rest
    have h := @varint_spec (pre ++ 0xFE :: 0 :: 0 :: 1 :: 0 :: rest) rest pre.length 0x10000
      (append_length_le _ _) (by rw [List.drop_left]; rfl) (by omega)
    simpa [encodeVarInt, leBytes] using h
  · intro pre rest
    have h := @varint_spec (pre ++ 0xFF :: 0 :: 0 :: 0 :: 0 :: 1 :: 0 :: 0 :: 0 :: rest) rest
      pre.length 0x100000000 (append_length_le _ _)
      (by rw [List.drop_left]; rfl) (by omega)
    simpa [encodeVarInt, leBytes] using h

/-- Witness for C2 at concrete inputs: the non-canonical `[0xFD, 5, 0]` is
rejected and the boundary encodings are accepted. -/
theorem varint_canonicality_witness :
    varint_from_bytes [0xFD, 5, 0] 0 = .err "Incorrect VarInt" ∧
    varint_from_bytes [0xFE, 0xFF, 0xFF, 0, 0] 0 = .err "Incorrect VarInt" ∧
    varint_from_bytes [0xFF, 0xFF, 0xFF, 0xFF, 0xFF, 0, 0, 0, 0] 0 =
      .err "Incorrect VarInt" ∧
    varint_from_bytes [252] 0 = .ok (252, 1) ∧
    varint_from_bytes [0xFD, 253, 0] 0 = .ok (253, 3) ∧
    varint_from_bytes [0xFE, 0, 0, 1, 0] 0 = .ok (0x10000, 5) ∧
    varint_from_bytes [0xFF, 0, 0, 0, 0, 1, 0, 0, 0] 0 = .ok (0x100000000, 9) := by
  refine ⟨?_, ?_, ?_, ?_, ?_, ?_, ?_⟩
  · exact varint_canonicality.1 [] [] 5 0 (by decide) (by decide) (by decide)
  · exact varint_canonicality.2.1 [] [] 0xFF 0xFF 0 0 (by decide) (by decide) (by decide)
      (by decide) (by decide)
  · exact varint_canonicality.2.2.1 [] [] 0xFF 0xFF 0xFF 0xFF 0 0 0 0 (by decide) (by decide)
      (by decide) (by decide) (by decide) (by decide) (by decide) (by decide) (by decide)
  · exact varint_canonicality.2.2.2.1 [] [] 252 (by decide)
  · exact varint_canonicality.2.2.2.2.1 [] []
  · exact varint_canonicality.2.2.2.2.2.1 [] []
  · exact varint_canonicality.2.2.2.2.2.2 [] []

/-- C3 (refuted — the decoder is not panic-free): decoding the 15-byte slice
`[0,0,0,0, 0, 1, 0,0,0,0,0,0,0,0, 0]` — version 0, no inputs, one output of
value 0 whose script has declared length 0 — reaches `script_raw[0]` on an
empty vector inside the `Script` decoder and panics (an index-out-of-bounds
abort), instead of returning a typed decode error as the specification
requires.  The `.panik` outcome is the embedded Rust panic. -/
theorem transaction_decode_panics_on_empty_script :
    transaction_from_bytes [0, 0, 0, 0, 0, 1, 0, 0, 0, 0, 0, 0, 0, 0, 0] 0 =
      .panik "index out of bounds" := by
  rfl

/-- Counterexample to C4 as stated: the 3-byte script `[0x00, 0x14, 0xAA]` is
not a 22-byte version-0 witness program and is not OP_RETURN-shaped, so the
claim requires it to be rejected; `Script::from_bytes` nevertheless accepts it
as a `CustodyDeposit` carrying `"aa"` (the source never checks the script
length). -/
theorem script_classify_accepts_short_witness_program :
    classifyScript [0x00, 0x14, 0xAA] = .ok (.V0P2wpkh "aa") := by
  rfl

/-- C4 (amended): full classification behaviour of `Script::from_bytes`.
A script `0x6a :: len :: body` with `body` valid UTF-8 classifies as
`OpReturn body` for ANY push-length byte `len` (the length byte is ignored,
not validated); with malformed UTF-8 it panics (the `String::from_utf8`
unwrap) rather than returning a classification error.  A script
`0x00 :: 0x14 :: payload` of ANY length classifies as `V0P2wpkh` with the
lower-case hex of `payload` (the 22-byte shape is not enforced).  A nonempty
script starting with neither `0x6a` nor `0x00`, or starting `0x00` with
second byte other than `0x14`, is rejected with `Err("Incorrect script")`.
The empty script and the one-byte scripts `[0x6a]` and `[0x00]` panic on
out-of-bounds indexing. -/
theorem script_classification_characterization :
    (∀ (len : Nat) (body : List Nat), utf8Valid body = true →
      classifyScript (0x6a :: len :: body) = .ok (.OpReturn body)) ∧
    (∀ (len : Nat) (body : List Nat), utf8Valid body = false →
      classifyScript (0x6a :: len :: body) = .panik "invalid utf-8 sequence") ∧
    (∀ payload : List Nat,
      classifyScript (0x00 :: 0x14 :: payload) = .ok (.V0P2wpkh (hexEncode payload))) ∧
    (∀ (b0 : Nat) (rest : List Nat), b0 ≠ 0x6a → b0 ≠ 0x00 →
      classifyScript (b0 :: rest) = .err "Incorrect script") ∧
    (∀ (b1 : Nat) (rest : List Nat), b1 ≠ 0x14 →
      classifyScript (0x00 :: b1 :: rest) = .err "Incorrect script") ∧
    classifyScript [] = .panik "index out of bounds" ∧
    classifyScript [0x6a] = .panik "range start index 2 out of range" ∧
    classifyScript [0x00] = .panik "index out of bounds" := by
  refine ⟨?_, ?_, ?_, ?_, ?_, rfl, rfl, rfl⟩
  · intro len body h
    simp [classifyScript, h]
  · intro len body h
    simp [classifyScript, h]
  · intro payload
    simp [classifyScript]
  · intro b0 rest h6a h00
    simp only [classifyScript, if_neg h6a, if_neg h00]
  · intro b1 rest h14
    simp [classifyScript, h14]

/-- Witness for the amended C4 at concrete scripts: a valid OP_RETURN body, a
malformed-UTF-8 body, a 20-byte witness-program payload, and the two
`Err` shapes. -/
theorem script_classification_characterization_witness :
    classifyScript [0x6a, 0x01, 0x41] = .ok (.OpReturn [0x41]) ∧
    classifyScript [0x6a, 0x01, 0x80] = .panik "invalid utf-8 sequence" ∧
    classifyScript
        (0x00 :: 0x14 :: List.replicate 20 0xab) =
      .ok (.V0P2wpkh (hexEncode (List.replicate 20 0xab))) ∧
    classifyScript [0x51] = .err "Incorrect script" ∧
    classifyScript [0x00, 0x15, 0x00] = .err "Incorrect script" := by
  refine ⟨?_, ?_, ?_, ?_, ?_⟩
  · exact script_classification_characterization.1 0x01 [0x41] (by decide)
  · exact script_classification_characterization.2.1 0x01 [0x80] (by decide)
  · exact script_classification_characterization.2.2.1 (List.replicate 20 0xab)
  · exact script_classification_characterization.2.2.2.1 0x51 [] (by decide) (by decide)
  · exact script_classification_characterization.2.2.2.2.1 0x15 [0x00] (by decide)

/-! ### Hex strings: value of a digit and round trip with `hex::encode` -/

theorem hexDigit_hexVal {c : Char} (h : c ∈ hexChars) : hexDigit (hexVal c) = c := by
  unfold hexChars at h
  rw [List.mem_append] at h
  rcases h with h | h <;> fin_cases h <;> rfl

theorem hexVal_lt {c : Char} (h : c ∈ hexChars) : hexVal c < 16 := by
  unfold hexChars at h
  rw [List.mem_append] at h
  rcases h with h | h <;> fin_cases h <;> decide

theorem hexEncodeList_hexDecodeList :
    ∀ cs : List Char, cs.length % 2 = 0 → (∀ c ∈ cs, c ∈ hexChars) →
      hexEncodeList (hexDecodeList cs) = cs
  | [], _, _ => rfl
  | [c], h, _ => by simp at h
  | c1 :: c2 :: rest, h, hmem => by
    have hm1 : c1 ∈ hexChars := hmem c1 (by simp)
    have hm2 : c2 ∈ hexChars := hmem c2 (by simp)
    have hv1 : hexVal c1 < 16 := hexVal_lt hm1
    have hv2 : hexVal c2 < 16 := hexVal_lt hm2
    have e1 : (16 * hexVal c1 + hexVal c2) % 256 / 16 = hexVal c1 := by omega
    have e2 : (16 * hexVal c1 + hexVal c2) % 16 = hexVal c2 := by omega
    have hlen : rest.length % 2 = 0 := by simp [List.length_cons] at h; omega
    have ih := hexEncodeList_hexDecodeList rest hlen
      (fun c hc => hmem c (by simp [hc]))
    simp [hexDecodeList, hexEncodeList, e1, e2, ih, hexDigit_hexVal hm1,
      hexDigit_hexVal hm2]

theorem hexEncode_hexDecode {s : String} (hlen : s.data.length % 2 = 0)
    (hmem : ∀ c ∈ s.data, c ∈ hexChars) : hexEncode (hexDecode s) = s := by
  show String.mk (hexEncodeList (hexDecodeList s.data)) = s
  rw [hexEncodeList_hexDecodeList s.data hlen hmem]

theorem hexDecodeList_length (cs : List Char) :
    (hexDecodeList cs).length = cs.length / 2 := by
  induction cs using hexDecodeList.induct with
  | case1 c1 c2 rest ih => simp [hexDecodeList, ih]; omega
  | case2 cs h => cases cs with
    | nil => simp [hexDecodeList]
    | cons c t =>
      cases t with
      | nil => simp [hexDecodeList]
      | cons c2 t2 => exact absurd rfl (h c c2 t2)

/-! ### Decoding the encoder's output -/

/-- Advancing the cursor past a recognized prefix. -/
theorem drop_shift {bytes enc rest : List Nat} {o : Nat}
    (hd : bytes.drop o = enc ++ rest) : bytes.drop (o + enc.length) = rest := by
  rw [← List.drop_drop, hd, List.drop_left]

theorem drop_le {bytes enc rest : List Nat} {o : Nat}
    (ho : o ≤ bytes.length) (hd : bytes.drop o = enc ++ rest) :
    o + enc.length ≤ bytes.length := by
  have := drop_length_decomp ho hd; omega

theorem script_spec {bytes rest : List Nat} {o : Nat} {s : Script}
    (ho : o ≤ bytes.length) (hd : bytes.drop o = encodeScript s ++ rest)
    (hwf : WFScript s = true) :
    script_from_bytes bytes o = .ok (s, o + (encodeScript s).length) := by
  cases s with
  | OpReturn account =>
    simp only [WFScript, Bool.and_eq_true, decide_eq_true_eq] at hwf
    simp only [encodeScript] at hd ⊢
    have hvec := vec_u8_spec (v := 0x6a :: account.length :: account) ho hd
      (by simp [List.length_cons]; omega)
    simp [script_from_bytes, hvec, classifyScript, hwf.1]
  | V0P2wpkh pk =>
    simp only [WFScript, Bool.and_eq_true, decide_eq_true_eq] at hwf
    simp only [encodeScript] at hd ⊢
    have hlen20 : (hexDecode pk).length = 20 := by
      show (hexDecodeList pk.data).length = 20
      rw [hexDecodeList_length, hwf.1]
    have hvec := vec_u8_spec (v := 0x00 :: 0x14 :: hexDecode pk) ho hd
      (by simp [List.length_cons, hlen20])
    have hhex : hexEncode (hexDecode pk) = pk :=
      hexEncode_hexDecode (by rw [hwf.1]) hwf.2
    simp [script_from_bytes, hvec, classifyScript, hhex]

theorem outpoint_spec {bytes rest : List Nat} {o : Nat} {p : OutPoint}
    (ho : o ≤ bytes.length) (hd : bytes.drop o = encodeOutPoint p ++ rest)
    (ht : p.txid.length = 32) (hv : p.vout < 2 ^ 32) :
    outpoint_from_bytes bytes o = .ok (p, o + (encodeOutPoint p).length) := by
  unfold encodeOutPoint at hd ⊢
  rw [List.append_assoc] at hd
  have h1 := h256_spec ho hd ht
  have ho1 : o + 32 ≤ bytes.length := by
    have := drop_le ho (hd.trans (by rw [← List.append_assoc])); simp at this
    have h32 : p.txid.length + (leBytes 4 p.vout).length = 36 := by
      simp [ht, leBytes_length]
    omega
  have hd1 : bytes.drop (o + 32) = leBytes 4 p.vout ++ rest := by
    have := drop_shift hd
    rwa [ht] at this
  have h2 := u32_spec ho1 hd1 hv
  simp [outpoint_from_bytes, h1, h2, List.length_append, ht, leBytes_length]

theorem txin_spec {bytes rest : List Nat} {o : Nat} {i : TxIn}
    (ho : o ≤ bytes.length) (hd : bytes.drop o = encodeTxIn i ++ rest)
    (hwf : WFTxIn i = true) :
    txin_from_bytes bytes o = .ok (i, o + (encodeTxIn i).length) := by
  simp only [WFTxIn, Bool.and_eq_true, decide_eq_true_eq] at hwf
  obtain ⟨⟨⟨⟨⟨ht32, _⟩, hvout⟩, _⟩, hsig⟩, hseq⟩ := hwf
  unfold encodeTxIn at hd ⊢
  simp only [List.append_assoc] at hd
  have h1 := outpoint_spec ho
    (by rw [hd]) ht32 hvout
  have ho1 : o + (encodeOutPoint i.previous_output).length ≤ bytes.length :=
    drop_le ho hd
  have hd1 := drop_shift hd
  have h2 := vec_u8_spec ho1 hd1 hsig
  have ho2 : o + (encodeOutPoint i.previous_output).length +
      (encodeVecU8 i.script_sig).length ≤ bytes.length :=
    drop_le ho1 hd1
  have hd2 := drop_shift hd1
  have h3 := u32_spec ho2 hd2 hseq
  simp [txin_from_bytes, h1, h2, h3, List.length_append, leBytes_length]
  omega

theorem txout_spec {bytes rest : List Nat} {o : Nat} {t : TxOut}
    (ho : o ≤ bytes.length) (hd : bytes.drop o = encodeTxOut t ++ rest)
    (hwf : WFTxOut t = true) :
    txout_from_bytes bytes o = .ok (t, o + (encodeTxOut t).length) := by
  simp only [WFTxOut, Bool.and_eq_true, decide_eq_true_eq] at hwf
  unfold encodeTxOut at hd ⊢
  simp only [List.append_assoc] at hd
  have h1 := u64_spec ho (by rw [hd]) hwf.1
  have ho1 : o + (leBytes 8 t.value).length ≤ bytes.length := drop_le ho hd
  have hd1 := drop_shift hd
  have h2 := script_spec ho1 hd1 hwf.2
  simp only [leBytes_length] at ho1 hd1 h2
  simp [txout_from_bytes, h1, h2, List.length_append, leBytes_length]
  omega

/-- Decoding a counted sequence from the concatenation of element encodings:
generic over the element decoder, its encoder, and its well-formedness, given
the element-level round-trip law. -/
theorem decodeCount_spec {α : Type} {dec : List Nat → Nat → DRes (α × Nat)}
    {enc : α → List Nat} {P : α → Bool}
    (hspec : ∀ {bytes rest : List Nat} {o : Nat} (x : α), P x = true →
      o ≤ bytes.length → bytes.drop o = enc x ++ rest →
      dec bytes o = .ok (x, o + (enc x).length)) :
    ∀ (l : List α) {bytes rest : List Nat} {o : Nat}, (∀ x ∈ l, P x = true) →
      o ≤ bytes.length → bytes.drop o = (l.map enc).flatten ++ rest →
      decodeCount dec l.length bytes o = .ok (l, o + ((l.map enc).flatten).length)
  | [], bytes, rest, o, _, _, _ => by simp [decodeCount]
  | x :: xs, bytes, rest, o, hall, ho, hd => by
    simp only [List.map_cons, List.flatten_cons, List.append_assoc] at hd
    have h1 := hspec x (hall x (by simp)) ho hd
    have ho1 : o + (enc x).length ≤ bytes.length := drop_le ho hd
    have hd1 := drop_shift hd
    have ih := decodeCount_spec hspec xs (fun y hy => hall y (by simp [hy])) ho1 hd1
    simp only [List.length_cons, decodeCount, h1, DRes.monad_bind_eq_bind, DRes.bind_ok, ih]
    simp [List.length_append]
    omega

theorem vec_txin_spec {bytes rest : List Nat} {o : Nat} {l : List TxIn}
    (ho : o ≤ bytes.length)
    (hd : bytes.drop o = encodeVarInt l.length ++ (l.map encodeTxIn).flatten ++ rest)
    (hlen : l.length < 2 ^ 64) (hall : ∀ x ∈ l, WFTxIn x = true) :
    vec_txin_from_bytes bytes o =
      .ok (l, o + (encodeVarInt l.length).length + ((l.map encodeTxIn).flatten).length) := by
  rw [List.append_assoc] at hd
  have h1 := varint_spec ho hd hlen
  have ho1 : o + (encodeVarInt l.length).length ≤ bytes.length := drop_le ho hd
  have hd1 := drop_shift hd
  have h2 := decodeCount_spec (fun x hx h1 h2 => txin_spec h1 h2 hx) l hall ho1 hd1
  simp [vec_txin_from_bytes, h1, h2]

theorem vec_txout_spec {bytes rest : List Nat} {o : Nat} {l : List TxOut}
    (ho : o ≤ bytes.length)
    (hd : bytes.drop o = encodeVarInt l.length ++ (l.map encodeTxOut).flatten ++ rest)
    (hlen : l.length < 2 ^ 64) (hall : ∀ x ∈ l, WFTxOut x = true) :
    vec_txout_from_bytes bytes o =
      .ok (l, o + (encodeVarInt l.length).length + ((l.map encodeTxOut).flatten).length) := by
  rw [List.append_assoc] at hd
  have h1 := varint_spec ho hd hlen
  have ho1 : o + (encodeVarInt l.length).length ≤ bytes.length := drop_le ho hd
  have hd1 := drop_shift hd
  have h2 := decodeCount_spec (fun x hx h1 h2 => txout_spec h1 h2 hx) l hall ho1 hd1
  simp [vec_txout_from_bytes, h1, h2]

theorem transaction_spec {bytes rest : List Nat} {o : Nat} {t : Transaction}
    (ho : o ≤ bytes.length) (hd : bytes.drop o = encodeTransaction t ++ rest)
    (hwf : WFTransaction t = true) :
    transaction_from_bytes bytes o = .ok (t, o + (encodeTransaction t).length) := by
  simp only [WFTransaction, Bool.and_eq_true, decide_eq_true_eq, List.all_eq_true] at hwf
  obtain ⟨⟨⟨⟨⟨hver, hlock⟩, hilen⟩, holen⟩, hin⟩, hout⟩ := hwf
  unfold encodeTransaction at hd ⊢
  simp only [List.append_assoc] at hd
  have h1 := i32_spec ho (by rw [hd]) hver
  have ho1 : o + (leBytes 4 t.version).length ≤ bytes.length := drop_le ho hd
  have hd1 := drop_shift hd
  rw [← List.append_assoc] at hd1
  have h2 := vec_txin_spec ho1 (by rw [hd1, List.append_assoc]) hilen hin
  have ho2 := drop_le ho1 (by rw [hd1] : bytes.drop (o + (leBytes 4 t.version).length) =
    (encodeVarInt t.input.length ++ (t.input.map encodeTxIn).flatten) ++
      (encodeVarInt t.output.length ++ ((t.output.map encodeTxOut).flatten ++
        (leBytes 4 t.lock_time ++ rest))))
  have hd2 := drop_shift (by rw [hd1] : bytes.drop (o + (leBytes 4 t.version).length) =
    (encodeVarInt t.input.length ++ (t.input.map encodeTxIn).flatten) ++
      (encodeVarInt t.output.length ++ ((t.output.map encodeTxOut).flatten ++
        (leBytes 4 t.lock_time ++ rest))))
  rw [← List.append_assoc] at hd2
  have h3 := vec_txout_spec ho2 (by rw [hd2, List.append_assoc]) holen hout
  have ho3 := drop_le ho2 (by rw [hd2] : _ =
    (encodeVarInt t.output.length ++ (t.output.map encodeTxOut).flatten) ++
      (leBytes 4 t.lock_time ++ rest))
  have hd3 := drop_shift (by rw [hd2] : _ =
    (encodeVarInt t.output.length ++ (t.output.map encodeTxOut).flatten) ++
      (leBytes 4 t.lock_time ++ rest))
  have h4 := u32_spec ho3 hd3 hlock
  simp only [List.length_append, leBytes_length, List.length_flatten, List.map_map,
    Nat.add_assoc] at h2 h3 h4 ⊢
  simp [transaction_from_bytes, h1, h2, h3, h4, Nat.add_assoc]

/-- C8: codec round-trip law.  For every well-formed transaction `t`, decoding
the canonical wire serialization of `t` from the start of the buffer returns
exactly `t` and consumes the whole buffer.  The decoder is the repository's
`ConsensusDecoder for Transaction`; the encoder is modelled from §4.1 of the
spec (the repository itself contains no encoder). -/
theorem decode_encode_roundtrip (t : Transaction) (hwf : WFTransaction t = true) :
    transaction_from_bytes (encodeTransaction t) 0 =
      .ok (t, (encodeTransaction t).length) := by
  have h := @transaction_spec (encodeTransaction t) [] 0 t
    (Nat.zero_le _) (by simp) hwf
  simpa using h

/-- Witness for C8: the round-trip law instantiated at the repository's own
test-vector transaction. -/
theorem decode_encode_roundtrip_witness :
    WFTransaction testTx = true ∧
    transaction_from_bytes (encodeTransaction testTx) 0 =
      .ok (testTx, (encodeTransaction testTx).length) :=
  ⟨by decide, decode_encode_roundtrip testTx (by decide)⟩

/-! ### Pending-transfer queue: C1 and C10 -/

theorem mapGet_mapInsert (m : List (Nat × NewTransferToBitcoin)) (k : Nat)
    (v : NewTransferToBitcoin) : mapGet (mapInsert m k v) k = some v := by
  induction m with
  | nil => simp [mapInsert, mapGet]
  | cons p rest ih =>
    by_cases h : p.1 = k
    · simp [mapInsert, mapGet, h]
    · simp [mapInsert, mapGet, h, ih]

/-- C1 (refuted — the enqueue counter is never advanced): on a freshly
initialized connector, two successful `ft_on_transfer` enqueues (N = 2,
M = 0) leave `last_nonce = 0` instead of 2, and the pending-transfer map
holds a single entry at nonce 0 — the second transfer overwrote the first —
instead of two entries at nonces 0 and 1.  `ft_on_transfer` stores at
`self.last_nonce` but contains no `self.last_nonce += 1`, so the spec's
invariant `next_to_assign = N` fails for every N ≥ 1, and the first dequeue
advances `min_nonce` past `last_nonce`, permanently wedging the queue. -/
theorem enqueue_never_increments_last_nonce :
    (ft_on_transfer
        (ft_on_transfer (ConnectorState.new "pk" "omni" 2 "light" "signer")
          "alice.near" 5000 "bc1qfirst").state
        "bob.near" 7000 "bc1qsecond").state.last_nonce = 0 ∧
    (ft_on_transfer
        (ft_on_transfer (ConnectorState.new "pk" "omni" 2 "light" "signer")
          "alice.near" 5000 "bc1qfirst").state
        "bob.near" 7000 "bc1qsecond").state.new_transfers =
      [(0, ⟨"bob.near", "bc1qsecond", 7000⟩)] ∧
    (ft_on_transfer
        (ft_on_transfer (ConnectorState.new "pk" "omni" 2 "light" "signer")
          "alice.near" 5000 "bc1qfirst").state
        "bob.near" 7000 "bc1qsecond").state.min_nonce = 0 := by
  refine ⟨rfl, ?_, rfl⟩
  decide

/-- C10: for every `ft_on_transfer` call with 128-bit amount `a`, the stored
`PendingTransfer` and the emitted `InitTransferEvent` both carry
`a mod 2 ^ 64` (the `as u64` cast), while the external `burn` is issued for
the full 128-bit amount; for `a ≥ 2 ^ 64` the recorded value therefore
differs from the burned amount. -/
theorem ft_on_transfer_truncates_value_to_u64 (s : ConnectorState)
    (sender msg : String) (amount : Nat) :
    mapGet (ft_on_transfer s sender amount msg).state.new_transfers s.last_nonce =
      some ⟨sender, msg, amount % 2 ^ 64⟩ ∧
    (ft_on_transfer s sender amount msg).event_value = amount % 2 ^ 64 ∧
    (ft_on_transfer s sender amount msg).burn_amount = amount ∧
    (2 ^ 64 ≤ amount → amount % 2 ^ 64 ≠ amount) := by
  refine ⟨?_, rfl, rfl, ?_⟩
  · exact mapGet_mapInsert s.new_transfers s.last_nonce _
  · intro h
    have := Nat.mod_lt amount (show 0 < 2 ^ 64 by norm_num)
    omega

/-- Witness for C10 at `a = 2 ^ 64`: the stored and logged value is 0, the
burn is for the full `2 ^ 64`. -/
theorem ft_on_transfer_truncates_value_to_u64_witness :
    mapGet (ft_on_transfer (ConnectorState.new "pk" "omni" 2 "light" "signer")
        "alice.near" (2 ^ 64) "bc1qaddr").state.new_transfers 0 =
      some ⟨"alice.near", "bc1qaddr", 0⟩ ∧
    (ft_on_transfer (ConnectorState.new "pk" "omni" 2 "light" "signer")
        "alice.near" (2 ^ 64) "bc1qaddr").event_value = 0 ∧
    (ft_on_transfer (ConnectorState.new "pk" "omni" 2 "light" "signer")
        "alice.near" (2 ^ 64) "bc1qaddr").burn_amount = 2 ^ 64 ∧
    (2 ^ 64) % 2 ^ 64 ≠ 2 ^ 64 := by
  have h := ft_on_transfer_truncates_value_to_u64
    (ConnectorState.new "pk" "omni" 2 "light" "signer") "alice.near" "bc1qaddr" (2 ^ 64)
  refine ⟨?_, ?_, h.2.2.1, h.2.2.2 (le_refl _)⟩
  · simpa using h.1
  · simpa using h.2.1

/-! ### UTXO selection: C7 -/

/-- Invariant of the `get_utxo` scan: starting from a running best index that
dominates all entries before `i` (strictly dominating everything before
itself), the loop returns the first index of the maximum value. -/
theorem maxJLoop_spec (l : List UTXO) (i mj : Nat) (hmj_i : mj < i)
    (hmj : mj < l.length)
    (hmax : ∀ k, k < i → (l.getD k defUTXO).value ≤ (l.getD mj defUTXO).value)
    (hfirst : ∀ k, k < mj → (l.getD k defUTXO).value < (l.getD mj defUTXO).value) :
    maxJLoop l mj i < l.length ∧
    (∀ k, k < l.length →
      (l.getD k defUTXO).value ≤ (l.getD (maxJLoop l mj i) defUTXO).value) ∧
    (∀ k, k < maxJLoop l mj i →
      (l.getD k defUTXO).value < (l.getD (maxJLoop l mj i) defUTXO).value) := by
  by_cases h : i < l.length
  · rw [maxJLoop, if_pos h]
    by_cases hgt : (l.getD i defUTXO).value > (l.getD mj defUTXO).value
    · rw [if_pos hgt]
      refine maxJLoop_spec l (i + 1) i (by omega) h ?_ ?_
      · intro k hk
        rcases Nat.lt_succ_iff_lt_or_eq.mp hk with hk' | rfl
        · exact le_of_lt (lt_of_le_of_lt (hmax k hk') hgt)
        · exact le_refl _
      · intro k hk
        exact lt_of_le_of_lt (hmax k hk) hgt
    · rw [if_neg hgt]
      refine maxJLoop_spec l (i + 1) mj (by omega) hmj ?_ hfirst
      intro k hk
      rcases Nat.lt_succ_iff_lt_or_eq.mp hk with hk' | rfl
      · exact hmax k hk'
      · omega
  · rw [maxJLoop, if_neg h]
    exact ⟨hmj, fun k hk => hmax k (by omega), hfirst⟩
termination_by l.length - i

/-- The last element, consed onto `dropLast`, is a permutation of the list. -/
theorem lastD_cons_dropLast_perm (t : List UTXO) (h : t ≠ []) :
    (t.getD (t.length - 1) defUTXO :: t.dropLast).Perm t := by
  have hlt : t.length - 1 < t.length := by
    cases t with
    | nil => exact absurd rfl h
    | cons a t' => simp
  have hgd : t.getD (t.length - 1) defUTXO = t.getLast h := by
    rw [List.getD_eq_getElem t defUTXO hlt, List.getLast_eq_getElem]
  rw [hgd]
  calc (t.getLast h :: t.dropLast).Perm (t.dropLast ++ [t.getLast h]) :=
        (List.perm_append_singleton _ _).symm
    _ = t := List.dropLast_append_getLast h

/-- `swap_remove` returns the selected element and a list that is, as a
multiset, the original with that one occurrence removed. -/
theorem swapRemove_perm : ∀ (l : List UTXO) (j : Nat), j < l.length →
    ((swapRemove l j).1 :: (swapRemove l j).2).Perm l
  | [], j, h => absurd h (by simp)
  | a :: t, 0, _ => by
    cases t with
    | nil => simp [swapRemove]
    | cons b t' =>
      have hne : (b :: t') ≠ [] := by simp
      have hx : (a :: b :: t').getD ((a :: b :: t').length - 1) defUTXO =
          (b :: t').getD ((b :: t').length - 1) defUTXO := by
        simp only [List.length_cons, Nat.add_sub_cancel]
        exact List.getD_cons_succ
      simp only [swapRemove, List.getD_cons_zero, List.set_cons_zero, hx,
        List.dropLast_cons_of_ne_nil hne]
      exact (lastD_cons_dropLast_perm (b :: t') hne).cons a
  | a :: t, j + 1, h => by
    have hj : j < t.length := by simpa using h
    have hne : t ≠ [] := by
      cases t with
      | nil => simp at hj
      | cons _ _ => simp
    have hx : (a :: t).getD ((a :: t).length - 1) defUTXO =
        t.getD (t.length - 1) defUTXO := by
      cases t with
      | nil => exact absurd rfl hne
      | cons b t' =>
        simp only [List.length_cons, Nat.add_sub_cancel]
        exact List.getD_cons_succ
    have hsetne : t.set j (t.getD (t.length - 1) defUTXO) ≠ [] := by
      cases t with
      | nil => exact absurd rfl hne
      | cons b t' => cases j <;> simp
    have ih := swapRemove_perm t j hj
    simp only [swapRemove] at ih ⊢
    simp only [List.getD_cons_succ, hx, List.set_cons_succ,
      List.dropLast_cons_of_ne_nil hsetne]
    exact ((List.Perm.swap a (t.getD j defUTXO) _).trans (ih.cons a))

/-- C7: UTXO selection.  On a non-empty ledger, `get_utxo` returns the entry
at the first index attaining the maximum value — every entry's value is at
most the returned value, and every entry before the selected index is
strictly smaller — and the remaining ledger is, as a multiset, the original
with exactly that one occurrence removed.  On an empty ledger the call fails:
`swap_remove(0)` panics with an index-out-of-bounds abort (which the NEAR
runtime turns into a failed call with the ledger unchanged; the spec's
taxonomy names this ExhaustedResource / "no UTXO available"). -/
theorem get_utxo_selects_first_max :
    get_utxo [] = .panik "ERR_INDEX_OUT_OF_BOUNDS" ∧
    ∀ l : List UTXO, l ≠ [] →
      ∃ (u : UTXO) (rest : List UTXO), get_utxo l = .ok (u, rest) ∧
        (∀ k, k < l.length → (l.getD k defUTXO).value ≤ u.value) ∧
        (∃ j, j < l.length ∧ u = l.getD j defUTXO ∧
          ∀ k, k < j → (l.getD k defUTXO).value < u.value) ∧
        (u :: rest).Perm l := by
  refine ⟨rfl, ?_⟩
  intro l hl
  have hlen : l.length ≠ 0 := by simpa using fun h => hl (List.length_eq_zero.mp h)
  have hspec := maxJLoop_spec l 1 0 (by omega) (by omega)
    (fun k hk => by interval_cases k; exact le_refl _)
    (fun k hk => by omega)
  refine ⟨(swapRemove l (maxJLoop l 0 1)).1, (swapRemove l (maxJLoop l 0 1)).2, ?_, ?_, ?_, ?_⟩
  · simp [get_utxo, hlen]
  · intro k hk
    simpa [swapRemove] using hspec.2.1 k hk
  · exact ⟨maxJLoop l 0 1, hspec.1, rfl, fun k hk => hspec.2.2 k hk⟩
  · exact swapRemove_perm l (maxJLoop l 0 1) hspec.1

/-- Witness for C7: from the two-entry ledger of the spec's end-to-end
scenario (values 2000 and 5000), selection returns the 5000-satoshi entry and
leaves the 2000-satoshi one. -/
theorem get_utxo_selects_first_max_witness :
    ∃ (u : UTXO) (rest : List UTXO),
      get_utxo [⟨[1], 0, 2000, .V0P2wpkh "aa"⟩, ⟨[2], 0, 5000, .V0P2wpkh "bb"⟩] =
        .ok (u, rest) ∧
      (∀ k, k < 2 → (([⟨[1], 0, 2000, .V0P2wpkh "aa"⟩,
          ⟨[2], 0, 5000, .V0P2wpkh "bb"⟩] : List UTXO).getD k defUTXO).value ≤ u.value) ∧
      (∃ j, j < 2 ∧ u = ([⟨[1], 0, 2000, .V0P2wpkh "aa"⟩,
          ⟨[2], 0, 5000, .V0P2wpkh "bb"⟩] : List UTXO).getD j defUTXO ∧
        ∀ k, k < j → (([⟨[1], 0, 2000, .V0P2wpkh "aa"⟩,
          ⟨[2], 0, 5000, .V0P2wpkh "bb"⟩] : List UTXO).getD k defUTXO).value < u.value) ∧
      (u :: rest).Perm
        [⟨[1], 0, 2000, .V0P2wpkh "aa"⟩, ⟨[2], 0, 5000, .V0P2wpkh "bb"⟩] :=
  get_utxo_selects_first_max.2
    [⟨[1], 0, 2000, .V0P2wpkh "aa"⟩, ⟨[2], 0, 5000, .V0P2wpkh "bb"⟩] (by decide)

/-! ### Deposit finalization: C5, C6, C9 -/

/-- Characterization of a successful pass of the output loop: the credited
value is the (64-bit) sum of the matching custody outputs, the pushed UTXOs
are exactly the matching outputs in order, and the recipient is the first
`OpReturn` text (kept from the accumulator if already set). -/
theorem finLoop_ok (pk : String) (txId : List Nat) :
    ∀ (outs : List BOut) (i value : Nat) (recipient : Option (List Nat))
      (utxos : List UTXO) (v' : Nat) (r' : Option (List Nat)) (u' : List UTXO),
      value < 2 ^ 64 →
      finLoop pk txId outs i value recipient utxos = .ok (v', r', u') →
      v' = (value + sumCustody pk outs) % 2 ^ 64 ∧
      u' = utxos ++ custodyUtxos pk txId outs i ∧
      r' = optOr recipient (firstOpReturn outs)
  | [], i, value, recipient, utxos, v', r', u', hv, h => by
    simp only [finLoop, DRes.ok.injEq, Prod.mk.injEq] at h
    obtain ⟨rfl, rfl, rfl⟩ := h
    refine ⟨by simp [sumCustody]; omega, by simp [custodyUtxos], ?_⟩
    cases recipient <;> simp [firstOpReturn, optOr]
  | out :: rest, i, value, recipient, utxos, v', r', u', hv, h => by
    rcases hcl : classifyScript out.script_raw with a | msg | msg
    case err =>
      simp [finLoop, hcl, DRes.unwrapD] at h
    case panik =>
      simp [finLoop, hcl, DRes.unwrapD] at h
    case ok =>
      cases a with
      | V0P2wpkh p =>
        by_cases hp : p = pk
        · have h' : finLoop pk txId rest (i + 1) ((value + out.value) % 2 ^ 64) recipient
              (utxos ++ [⟨txId, i, out.value, .V0P2wpkh p⟩]) = .ok (v', r', u') := by
            simpa [finLoop, hcl, DRes.unwrapD, hp] using h
          have ih := finLoop_ok pk txId rest (i + 1) ((value + out.value) % 2 ^ 64)
            recipient (utxos ++ [⟨txId, i, out.value, .V0P2wpkh p⟩]) v' r' u'
            (Nat.mod_lt _ (by norm_num)) h'
          refine ⟨?_, ?_, ?_⟩
          · rw [ih.1, Nat.mod_add_mod]
            simp [sumCustody, hcl, hp, Nat.add_assoc]
          · rw [ih.2.1]
            simp [custodyUtxos, hcl, hp]
          · rw [ih.2.2]
            simp [firstOpReturn, hcl]
        · have h' : finLoop pk txId rest (i + 1) value recipient utxos = .ok (v', r', u') := by
            simpa [finLoop, hcl, DRes.unwrapD, hp] using h
          have ih := finLoop_ok pk txId rest (i + 1) value recipient utxos v' r' u' hv h'
          refine ⟨?_, ?_, ?_⟩
          · rw [ih.1]; simp [sumCustody, hcl, hp]
          · rw [ih.2.1]; simp [custodyUtxos, hcl, hp]
          · rw [ih.2.2]; simp [firstOpReturn, hcl]
      | OpReturn account =>
        cases recipient with
        | some prev =>
          simp [finLoop, hcl, DRes.unwrapD] at h
        | none =>
          have h' : finLoop pk txId rest (i + 1) value (some account) utxos =
              .ok (v', r', u') := by
            simpa [finLoop, hcl, DRes.unwrapD] using h
          have ih := finLoop_ok pk txId rest (i + 1) value (some account) utxos v' r' u' hv h'
          refine ⟨?_, ?_, ?_⟩
          · rw [ih.1]; simp [sumCustody, hcl]
          · rw [ih.2.1]; simp [custodyUtxos, hcl]
          · rw [ih.2.2]; simp [firstOpReturn, hcl, optOr]

/-- Whether the output loop succeeds depends only on the outputs and on
whether a recipient is already recorded — not on the cursor, the running
value, or the UTXO accumulator. -/
theorem finLoop_ok_of_ok (pk : String) (txId : List Nat) :
    ∀ (outs : List BOut) (i1 v1 : Nat) (u1 : List UTXO) (r1 r2 : Option (List Nat))
      (i2 v2 : Nat) (u2 : List UTXO) (res1 : Nat × Option (List Nat) × List UTXO),
      r1.isSome = r2.isSome →
      finLoop pk txId outs i1 v1 r1 u1 = .ok res1 →
      ∃ res2, finLoop pk txId outs i2 v2 r2 u2 = .ok res2
  | [], i1, v1, u1, r1, r2, i2, v2, u2, res1, _, _ => ⟨(v2, r2, u2), rfl⟩
  | out :: rest, i1, v1, u1, r1, r2, i2, v2, u2, res1, hr, h => by
    rcases hcl : classifyScript out.script_raw with a | msg | msg
    case err => simp [finLoop, hcl, DRes.unwrapD] at h
    case panik => simp [finLoop, hcl, DRes.unwrapD] at h
    case ok =>
      cases a with
      | V0P2wpkh p =>
        by_cases hp : p = pk
        · have h' := (by simpa [finLoop, hcl, DRes.unwrapD, hp] using h :
            finLoop pk txId rest (i1 + 1) ((v1 + out.value) % 2 ^ 64) r1
              (u1 ++ [⟨txId, i1, out.value, .V0P2wpkh p⟩]) = .ok res1)
          obtain ⟨res2, hres2⟩ := finLoop_ok_of_ok pk txId rest (i1 + 1)
            ((v1 + out.value) % 2 ^ 64) (u1 ++ [⟨txId, i1, out.value, .V0P2wpkh p⟩]) r1 r2
            (i2 + 1) ((v2 + out.value) % 2 ^ 64)
            (u2 ++ [⟨txId, i2, out.value, .V0P2wpkh p⟩]) res1 hr h'
          exact ⟨res2, by simpa [finLoop, hcl, DRes.unwrapD, hp] using hres2⟩
        · have h' := (by simpa [finLoop, hcl, DRes.unwrapD, hp] using h :
            finLoop pk txId rest (i1 + 1) v1 r1 u1 = .ok res1)
          obtain ⟨res2, hres2⟩ := finLoop_ok_of_ok pk txId rest (i1 + 1) v1 u1 r1 r2
            (i2 + 1) v2 u2 res1 hr h'
          exact ⟨res2, by simpa [finLoop, hcl, DRes.unwrapD, hp] using hres2⟩
      | OpReturn account =>
        cases r1 with
        | some prev => simp [finLoop, hcl, DRes.unwrapD] at h
        | none =>
          cases r2 with
          | some prev => simp [Option.isSome] at hr
          | none =>
            have h' := (by simpa [finLoop, hcl, DRes.unwrapD] using h :
              finLoop pk txId rest (i1 + 1) v1 (some account) u1 = .ok res1)
            obtain ⟨res2, hres2⟩ := finLoop_ok_of_ok pk txId rest (i1 + 1) v1 u1
              (some account) (some account) (i2 + 1) v2 u2 res1 rfl h'
            exact ⟨res2, by simpa [finLoop, hcl, DRes.unwrapD] using hres2⟩

/-- A pass over outputs containing two or more `OpReturn`-classifying scripts
(or one more after a recipient is already recorded) always panics. -/
theorem finLoop_two_opreturn (pk : String) (txId : List Nat) :
    ∀ (outs : List BOut) (i value : Nat) (recipient : Option (List Nat))
      (utxos : List UTXO),
      2 ≤ countOpReturn outs ∨ (recipient.isSome = true ∧ 1 ≤ countOpReturn outs) →
      ∃ msg, finLoop pk txId outs i value recipient utxos = .panik msg
  | [], i, value, recipient, utxos, h => by
    simp [countOpReturn] at h
  | out :: rest, i, value, recipient, utxos, h => by
    rcases hcl : classifyScript out.script_raw with a | msg | msg
    case err => exact ⟨msg, by simp [finLoop, hcl, DRes.unwrapD]⟩
    case panik => exact ⟨msg, by simp [finLoop, hcl, DRes.unwrapD]⟩
    case ok =>
      cases a with
      | V0P2wpkh p =>
        have hcount : countOpReturn (out :: rest) = countOpReturn rest := by
          simp [countOpReturn, hcl]
        rw [hcount] at h
        by_cases hp : p = pk
        · obtain ⟨msg, hmsg⟩ := finLoop_two_opreturn pk txId rest (i + 1)
            ((value + out.value) % 2 ^ 64) recipient
            (utxos ++ [⟨txId, i, out.value, .V0P2wpkh p⟩]) h
          exact ⟨msg, by simpa [finLoop, hcl, DRes.unwrapD, hp] using hmsg⟩
        · obtain ⟨msg, hmsg⟩ := finLoop_two_opreturn pk txId rest (i + 1) value recipient
            utxos h
          exact ⟨msg, by simpa [finLoop, hcl, DRes.unwrapD, hp] using hmsg⟩
      | OpReturn account =>
        cases recipient with
        | some prev =>
          exact ⟨"Tx should contain exactly one OP_RETURN script",
            by simp [finLoop, hcl, DRes.unwrapD]⟩
        | none =>
          have hcount : countOpReturn (out :: rest) = 1 + countOpReturn rest := by
            simp [countOpReturn, hcl]
          rw [hcount] at h
          have hrest : 2 ≤ countOpReturn rest ∨
              ((some account : Option (List Nat)).isSome = true ∧
                1 ≤ countOpReturn rest) := by
            rcases h with h | h
            · exact Or.inr ⟨rfl, by omega⟩
            · simp [Option.isSome] at h
          obtain ⟨msg, hmsg⟩ := finLoop_two_opreturn pk txId rest (i + 1) value
            (some account) utxos hrest
          exact ⟨msg, by simpa [finLoop, hcl, DRes.unwrapD] using hmsg⟩

/-- C5 (amended): on every successful deposit-finalization callback, the
UTXOs appended to the ledger are exactly the outputs whose script classifies
as `V0P2wpkh` with hex key hash EQUAL TO the connector's configured
`bitcoin_pk` (each recorded with the transaction id, its output index and its
value, in order), the minted amount is the 64-bit sum of exactly those
outputs' values, and the mint goes to the first `OpReturn` recipient if one
exists.  A `V0P2wpkh` output with any other key hash is classified as a
custody script but neither inserted nor credited — the pk-equality filter is
the amendment forced by the counterexample. -/
theorem fin_transfer_credits_matching_custody_outputs
    (s : ConnectorState) (cr : Option Bool) (txId : List Nat) (outs : List BOut)
    (s' : ConnectorState) (m : Option (List Nat × Nat))
    (h : fin_transfer_callback s cr txId outs = .ok (s', m)) :
    s'.utxos = s.utxos ++ custodyUtxos s.bitcoin_pk txId outs 0 ∧
    m = (firstOpReturn outs).map
      (fun r => (r, sumCustody s.bitcoin_pk outs % 2 ^ 64)) ∧
    s'.finalised_transfers = txId :: s.finalised_transfers := by
  cases cr with
  | none => simp [fin_transfer_callback] at h
  | some verified =>
    cases verified with
    | false => simp [fin_transfer_callback] at h
    | true =>
      rcases hloop : finLoop s.bitcoin_pk txId outs 0 0 none s.utxos with res | msg | msg
      case err => simp [fin_transfer_callback, hloop] at h
      case panik => simp [fin_transfer_callback, hloop] at h
      case ok =>
        obtain ⟨v, r, u⟩ := res
        have hchar := finLoop_ok s.bitcoin_pk txId outs 0 0 none s.utxos v r u
          (by norm_num) hloop
        by_cases hmem : txId ∈ s.finalised_transfers
        · simp [fin_transfer_callback, hloop, hmem] at h
        · simp only [fin_transfer_callback, hloop, DRes.monad_bind_eq_bind, DRes.bind_ok,
            if_pos rfl, if_neg hmem, if_true, DRes.ok.injEq, Prod.mk.injEq] at h
          obtain ⟨hs', hm⟩ := h
          subst hs'
          subst hm
          refine ⟨by simpa using hchar.2.1, ?_, rfl⟩
          rw [hchar.2.2]
          simp only [optOr]
          cases hfr : firstOpReturn outs <;> simp [hchar.1]

/-- Counterexample to C5 as stated: a verified deposit with one output
classified as `CustodyDeposit` (a `V0P2wpkh` script for a key hash DIFFERENT
from the connector's) finalizes successfully, yet no UTXO is inserted and the
minted amount is 0 — the claim requires the output to be inserted and its
5000 satoshis credited.  The source only credits outputs whose key hash
equals `self.bitcoin_pk`. -/
theorem fin_transfer_foreign_custody_output_not_credited :
    fin_transfer_callback connState (some true) [1] foreignOuts =
      .ok ({ connState with finalised_transfers := [[1]] }, some (aliceAcct, 0)) ∧
    ({ connState with finalised_transfers := [[1]] } : ConnectorState).utxos = [] := by
  refine ⟨by decide, rfl⟩

/-- Witness for the amended C5: the `matchOuts` deposit is credited — the
matching 5000-satoshi output is recorded as a UTXO and minted to "alice". -/
theorem fin_transfer_credits_matching_custody_outputs_witness :
    stateAfterDeposit.utxos =
      connState.utxos ++ custodyUtxos connState.bitcoin_pk [7] matchOuts 0 ∧
    (some (aliceAcct, 5000) : Option (List Nat × Nat)) =
      (firstOpReturn matchOuts).map
        (fun r => (r, sumCustody connState.bitcoin_pk matchOuts % 2 ^ 64)) ∧
    stateAfterDeposit.finalised_transfers = [7] :: connState.finalised_transfers :=
  fin_transfer_credits_matching_custody_outputs connState (some true) [7] matchOuts
    stateAfterDeposit (some (aliceAcct, 5000)) (by decide)

/-- C6: duplicate-deposit protection.  If a finalization callback for
identity `txId` succeeds, then `txId` was not yet in the finalised set and is
in it afterwards, and running the same callback again from the resulting
state fails with the duplicate-finalization panic "The transfer is already
finalised".  In the embedding a `.panik` outcome carries no state and no mint:
on NEAR the panic aborts the call and rolls back every write, so the
duplicate path has no balance-affecting side effect, and the set
check-and-insert is the single gate. -/
theorem fin_transfer_duplicate_rejected
    (s : ConnectorState) (cr : Option Bool) (txId : List Nat) (outs : List BOut)
    (s' : ConnectorState) (m : Option (List Nat × Nat))
    (h : fin_transfer_callback s cr txId outs = .ok (s', m)) :
    txId ∉ s.finalised_transfers ∧ txId ∈ s'.finalised_transfers ∧
    fin_transfer_callback s' cr txId outs =
      .panik "The transfer is already finalised" := by
  cases cr with
  | none => simp [fin_transfer_callback] at h
  | some verified =>
    cases verified with
    | false => simp [fin_transfer_callback] at h
    | true =>
      rcases hloop : finLoop s.bitcoin_pk txId outs 0 0 none s.utxos with res | msg | msg
      case err => simp [fin_transfer_callback, hloop] at h
      case panik => simp [fin_transfer_callback, hloop] at h
      case ok =>
        obtain ⟨v, r, u⟩ := res
        by_cases hmem : txId ∈ s.finalised_transfers
        · simp [fin_transfer_callback, hloop, hmem] at h
        · simp only [fin_transfer_callback, hloop, DRes.monad_bind_eq_bind, DRes.bind_ok,
            if_pos rfl, if_neg hmem, if_true, DRes.ok.injEq, Prod.mk.injEq] at h
          obtain ⟨hs', hm⟩ := h
          subst hs'
          refine ⟨hmem, List.mem_cons_self _ _, ?_⟩
          obtain ⟨res2, hres2⟩ := finLoop_ok_of_ok s.bitcoin_pk txId outs 0 0 s.utxos
            none none 0 0 u (v, r, u) rfl hloop
          have hmem' : txId ∈ txId :: s.finalised_transfers := List.mem_cons_self _ _
          simp [fin_transfer_callback, hres2, hmem']

/-- Witness for C6: finalizing the `matchOuts` deposit once succeeds; the
identity `[7]` enters the finalised set; repeating the callback from the
resulting state panics with the duplicate message. -/
theorem fin_transfer_duplicate_rejected_witness :
    [7] ∉ connState.finalised_transfers ∧
    [7] ∈ stateAfterDeposit.finalised_transfers ∧
    fin_transfer_callback stateAfterDeposit (some true) [7] matchOuts =
      .panik "The transfer is already finalised" :=
  fin_transfer_duplicate_rejected connState (some true) [7] matchOuts
    stateAfterDeposit (some (aliceAcct, 5000)) (by decide)

/-- C9: a verified deposit transaction with two or more outputs classifying
as `OpReturn` routing metadata is always rejected: the callback panics
(whatever the light-client result), so — by NEAR's rollback of a panicked
call, which the `.panik` outcome embeds — no UTXO insertion survives, no mint
is issued, and the identity is not recorded in the finalised set. -/
theorem two_op_return_outputs_rejected
    (s : ConnectorState) (cr : Option Bool) (txId : List Nat) (outs : List BOut)
    (h : 2 ≤ countOpReturn outs) :
    ∃ msg, fin_transfer_callback s cr txId outs = .panik msg := by
  cases cr with
  | none => exact ⟨"callback promise failed", by simp [fin_transfer_callback]⟩
  | some verified =>
    cases verified with
    | false => exact ⟨"Failed to verify proof", by simp [fin_transfer_callback]⟩
    | true =>
      obtain ⟨msg, hmsg⟩ := finLoop_two_opreturn s.bitcoin_pk txId outs 0 0 none s.utxos
        (Or.inl h)
      exact ⟨msg, by simp [fin_transfer_callback, hmsg]⟩

/-- Witness for C9: a verified two-OP_RETURN deposit panics. -/
theorem two_op_return_outputs_rejected_witness :
    ∃ msg, fin_transfer_callback connState (some true) [9] twoOpOuts = .panik msg :=
  two_op_return_outputs_rejected connState (some true) [9] twoOpOuts (by decide)
